import Mathlib

set_option maxHeartbeats 1000000
set_option maxRecDepth 4000

/-!
Shallow embedding of the dsl-parser library (the feature-complete `lib/` variant:
`Lexer`, `Parser`, `Visitor`, `ParseError`), together with theorems settling the
specification's claims.  Unbounded source loops (the lexer's per-line scan, the
grammar fixpoints, the canonical-collection loop and the parse driver) are given
an explicit fuel argument; a result of `none` means the fuel ran out while the
JS loop was still running, and is never conflated with normal termination or a
thrown error.  JS arrays used as stacks are represented as Lean lists with the
top element first (JS pushes and pops at the end); `splice(-n)` is `drop n`.
-/

/-- A lexed token: `{ type, match, index, line }` from the source.  The JS
`RegExpMatchArray` is modelled as the list of captured strings with the matched
text first (`match[0]`); the field is named `matchA` because `match` is a
keyword in Lean. -/
structure LexTree where
  type : String
  matchA : List String
  index : Nat
  line : Nat
deriving DecidableEq, Repr

/-- The error carrier from `ParseError.ts`: a message plus 0-based line/index. -/
structure ParseError where
  message : String
  line : Nat
  index : Nat
deriving DecidableEq, Repr

/-- A terminal `{ type, pattern }`.  The compiled sticky (`y`-flagged) regex is
modelled as an anchored matcher: `pattern input index` returns the match array
(matched text first) of a match starting exactly at `index`, or `none`.  A
zero-width match is `some` with an empty `match[0]`, exactly as a sticky JS
regex can produce. -/
structure Terminal where
  type : String
  pattern : String → Nat → Option (List String)

/-- The sticky regex of an auto-promoted string-literal terminal
(`new RegExp(el.replace(/[-[\]{}()*+?.,\\^$|#\s]/g, "\\$&"))` in
`Parser.terminals`): the literal is regex-escaped, so it matches exactly
itself at the given position. -/
def litPattern (lit : String) (input : String) (index : Nat) : Option (List String) :=
  if (input.toList.drop index).take lit.length = lit.toList then some [lit] else none

/-- A sticky regex of the form `/c*/`: always matches, taking the longest run
of `c` at the position — in particular it produces a zero-width match when the
character at the position is not `c`. -/
def starPattern (c : Char) (input : String) (index : Nat) : Option (List String) :=
  some [String.mk ((input.toList.drop index).takeWhile (fun d => d = c))]

namespace Lexer

/-- The eligibility test of `Lexer.next`:
`!activeTerminals || activeTerminals[terminal.type] || terminal.type === "whitespace"`.
`activeTerminals` is the action-table row; its stored values are `Action`
objects, which are always truthy, so the JS truthiness test
`activeTerminals[terminal.type]` is key membership.  We model the row passed to
the lexer by its list of keys. -/
def eligible (active : Option (List String)) (ty : String) : Bool :=
  match active with
  | none => true
  | some keys => keys.contains ty || ty == "whitespace"

/-- The scan loop of `Lexer.next` over the terminal list (declaration order).
`line` is `token.match[0]`, `tokIndex`/`tokLine` the position fields of the
unknown token. -/
def nextLoop (line : String) (tokIndex tokLine index : Nat)
    (active : Option (List String)) : List Terminal → Except ParseError LexTree
  | [] => .error ⟨"Lexer failed to recognize symbol", tokLine, tokIndex + index⟩
  | t :: ts =>
    if eligible active t.type then
      match t.pattern line index with
      | some m => .ok ⟨t.type, m, tokIndex + index, tokLine⟩
      | none => nextLoop line tokIndex tokLine index active ts
    else nextLoop line tokIndex tokLine index active ts

/-- `Lexer.next(token, index, activeTerminals)` from the `lib/` source: extract
the next symbol from an unknown token.  Returns a synthetic `$` token at end of
line, otherwise the first eligible terminal whose pattern matches at `index`,
otherwise throws. -/
def next (terminals : List Terminal) (token : LexTree) (index : Nat)
    (active : Option (List String)) : Except ParseError LexTree :=
  if (token.matchA.headD "").length ≤ index then
    .ok ⟨"$", [""], token.index + index, token.line⟩
  else
    nextLoop (token.matchA.headD "") token.index token.line index active terminals

/-- The inner `for (let index = 0; true;)` loop of `Lexer.lex` on one unknown
token, with fuel.  `.ok none` means the fuel ran out with the loop still
running. -/
def lexLine (terminals : List Terminal) (token : LexTree) :
    Nat → Nat → List LexTree → Except ParseError (Option (List LexTree))
  | 0, _, _ => .ok none
  | fuel + 1, index, acc =>
    match next terminals token index none with
    | .error e => .error e
    | .ok lexToken =>
      if lexToken.type == "$" then .ok (some acc)
      else lexLine terminals token fuel (index + (lexToken.matchA.headD "").length)
        (acc ++ [lexToken])

/-- `Lexer.lex(tokens)` from the `lib/` source: expand each `unknown` token
into its lexed symbols, passing other tokens through. -/
def lex (terminals : List Terminal) (fuel : Nat) :
    List LexTree → Except ParseError (Option (List LexTree))
  | [] => .ok (some [])
  | token :: rest =>
    if token.type == "unknown" then
      match lexLine terminals token fuel 0 [] with
      | .error e => .error e
      | .ok none => .ok none
      | .ok (some toks) =>
        match lex terminals fuel rest with
        | .error e => .error e
        | .ok none => .ok none
        | .ok (some out) => .ok (some (toks ++ out))
    else
      match lex terminals fuel rest with
      | .error e => .error e
      | .ok none => .ok none
      | .ok (some out) => .ok (some (token :: out))

/-- Drops one leading `'\r'`; applied to the reversed accumulator of
`splitLinesAux` when a `'\n'` is reached, so that a `"\r\n"` separator splits
like a bare `"\n"`. -/
def dropCR : List Char → List Char
  | '\r' :: rest => rest
  | l => l

/-- Character-level worker for `splitLines`; `cur` is the current line,
reversed. -/
def splitLinesAux : List Char → List Char → List String
  | [], cur => [String.mk cur.reverse]
  | c :: cs, cur =>
    if c = '\n' then String.mk (dropCR cur).reverse :: splitLinesAux cs []
    else splitLinesAux cs (c :: cur)

/-- JS `input.split(/\r?\n/)`: split at every `"\n"` or `"\r\n"`. -/
def splitLines (s : String) : List String :=
  splitLinesAux s.toList []

/-- Comment filtering shared by `split` and `splitOffside`:
`lines.filter(line => !comment || !comment.test(line))`, with the optional
comment regex modelled as a predicate. -/
def filterComment (comment : Option (String → Bool)) (lines : List String) : List String :=
  lines.filter (fun line =>
    match comment with
    | none => true
    | some c => !(c line))

/-- `Lexer.split(input, comment)`: wrap each surviving line as an `unknown`
token and append the `$` token at the final position.  (When the comment filter
removes every line the JS source dereferences `lines[-1]` and throws; that
unreachable-in-practice case is modelled with the defaults `""` and line
`lines.length - 1 = 0`.) -/
def split (input : String) (comment : Option (String → Bool)) : List LexTree :=
  let lines := filterComment comment (splitLines input)
  (lines.mapIdx (fun line str => ⟨"unknown", [str], 0, line⟩)) ++
    [⟨"$", [""], (lines.getLastD "").length, lines.length - 1⟩]

/-- JS whitespace class `\s` restricted to the characters that can occur inside
a split line (the Unicode space classes are out of scope). -/
def isJsSpace (c : Char) : Bool :=
  c == ' ' || c == '\t' || c == '\n' || c == '\r' || c == '\x0b' || c == '\x0c'

/-- `lines[i].match(/\S/)`: the column of the first non-whitespace character. -/
def firstNonWS (line : String) : Option Nat :=
  line.toList.findIdx? (fun c => !isJsSpace c)

/-- The `while (match.index < level[level.length-1])` popping loop of
`splitOffside`: emit one `dedent` per popped level.  The level stack is
top-first; the bottom `0` is never popped because `c ≥ 0`. -/
def popDedents (c i : Nat) : List Nat → List LexTree × List Nat
  | [] => ([], [])
  | top :: rest =>
    if c < top then
      let (ds, level) := popDedents c i rest
      (⟨"dedent", [""], c, i⟩ :: ds, level)
    else ([], top :: rest)

/-- The per-line loop of `Lexer.splitOffside`, accumulating output tokens.
`i` is the 0-based line number, `level` the indentation stack (top-first,
initially `[0]`). -/
def splitOffsideLoop : List String → Nat → List Nat → List LexTree →
    Except ParseError (List LexTree × List Nat)
  | [], _, level, acc => .ok (acc, level)
  | line :: rest, i, level, acc =>
    match firstNonWS line with
    | none => splitOffsideLoop rest (i + 1) level (acc ++ [⟨"unknown", [line], 0, i⟩])
    | some c =>
      if level.headD 0 < c then
        splitOffsideLoop rest (i + 1) (c :: level)
          (acc ++ [⟨"indent", [""], c, i⟩, ⟨"unknown", [line], 0, i⟩])
      else
        let (ds, level') := popDedents c i level
        if c ≠ level'.headD 0 then .error ⟨"Invalid indentation detected", i, c⟩
        else splitOffsideLoop rest (i + 1) level' (acc ++ ds ++ [⟨"unknown", [line], 0, i⟩])

/-- The `while (0 < level[level.length-1])` closing loop of `splitOffside`:
one `dedent` per remaining non-zero level, at the final position. -/
def trailingDedents (endIndex endLine : Nat) : List Nat → List LexTree
  | [] => []
  | top :: rest =>
    if 0 < top then ⟨"dedent", [""], endIndex, endLine⟩ :: trailingDedents endIndex endLine rest
    else []

/-- `Lexer.splitOffside(input, comment)`: split into lines, apply the offside
rule with an indentation stack initially `[0]`, and close with the remaining
dedents and the `$` token. -/
def splitOffside (input : String) (comment : Option (String → Bool)) :
    Except ParseError (List LexTree) :=
  let lines := filterComment comment (splitLines input)
  match splitOffsideLoop lines 0 [0] [] with
  | .error e => .error e
  | .ok (acc, level) =>
    let endIndex := (lines.getLastD "").length
    let endLine := lines.length - 1
    .ok (acc ++ trailingDedents endIndex endLine level ++ [⟨"$", [""], endIndex, endLine⟩])

end Lexer

/-! The `lib/` Parser: grammar analysis, item sets, action table, and the
table-driven runtime. -/

/-- A production rule: an ordered list of element names (`type Rule = string[]`). -/
abbrev Rule := List String

/-- A rule set `{ [key: string]: Rule[] }`, modelled as an association list
preserving the JS object's insertion order (which `for..in` iteration
follows). -/
abbrev RuleSet := List (String × List Rule)

/-- First-match lookup in an association list: `obj[key]`, with `none` for
`!obj.hasOwnProperty(key)`. -/
def alookup {α : Type} : List (String × α) → String → Option α
  | [], _ => none
  | (k, v) :: rest, key => if k = key then some v else alookup rest key

/-- JS object assignment `obj[key] = v`: replaces in place (keeping the key's
original position, as JS objects do) or appends a new key. -/
def aset {α : Type} : List (String × α) → String → α → List (String × α)
  | [], key, v => [(key, v)]
  | (k, w) :: rest, key, v =>
    if k = key then (k, v) :: rest else (k, w) :: aset rest key v

/-- JS `Set` insertion: insertion-ordered, deduplicating. -/
def setAdd (s : List String) (x : String) : List String :=
  if s.contains x then s else s ++ [x]

/-- `new Set([...a, ...b])`: union preserving first-occurrence order. -/
def setUnion (a b : List String) : List String := b.foldl setAdd a

/-- A dotted rule (item) `{ key, children, dot }`; `deepEqual` is structural
equality. -/
structure DottedRule where
  key : String
  children : Rule
  dot : Nat
deriving DecidableEq, Repr

namespace Parser

/-- `Parser.base(el)`: strips one trailing quantifier `+`, `*` or `?`
(`el.slice(0, -1)`). -/
def base (el : String) : String :=
  match el.toList.getLast? with
  | some '+' => String.mk el.toList.dropLast
  | some '*' => String.mk el.toList.dropLast
  | some '?' => String.mk el.toList.dropLast
  | _ => el

/-- `Parser.canOmit(el)`: `?` and `*` elements may be omitted. -/
def canOmit (el : String) : Bool :=
  match el.toList.getLast? with
  | some '*' => true
  | some '?' => true
  | _ => false

/-- `Parser.canRepeat(el)`: `+` and `*` elements may be repeated. -/
def canRepeat (el : String) : Bool :=
  match el.toList.getLast? with
  | some '+' => true
  | some '*' => true
  | _ => false

/-- One step of the terminal-collection fold of `Parser.terminals`: if the
element's base is neither a rule key nor an already-seen terminal type, create
the auto-promoted string-literal terminal for it. -/
def collectTerminal (rules : RuleSet) (acc : List Terminal × List String) (el : String) :
    List Terminal × List String :=
  let b := base el
  if (alookup rules b).isSome || acc.2.contains b then acc
  else (acc.1 ++ [⟨b, litPattern b⟩], acc.2 ++ [b])

/-- `Parser.terminals(rules, terminals)`: auto-promote, in rule-set iteration
order, every rule element that is neither a non-terminal nor a declared
terminal, then append the declared terminals. -/
def terminalsOf (rules : RuleSet) (terminals : List Terminal) : List Terminal :=
  let init : List Terminal × List String := ([], terminals.map (fun t => t.type))
  let out := rules.foldl (fun acc kv => kv.2.foldl (fun acc rule =>
    rule.foldl (collectTerminal rules) acc) acc) init
  out.1 ++ terminals

/-- The initialization pass of `Parser.first`: `first[key] = new Set()` for
each non-terminal (overwriting any earlier terminal-style entry, as the JS
assignment does), and `first[el] = first[el] || new Set([el])` for each
element base. -/
def firstInit (rules : RuleSet) : List (String × List String) :=
  rules.foldl (fun m kv =>
    let m := aset m kv.1 []
    kv.2.foldl (fun m rule => rule.foldl (fun m el =>
      let b := base el
      match alookup m b with
      | some _ => m
      | none => aset m b [b]) m) m) []

/-- The element scan of one `Parser.first` pass: union the FIRST of each
successive element of the rule into `first[key]`, stopping at the first
element that cannot be omitted. -/
def firstScan (key : String) :
    List String → List (String × List String) → List (String × List String)
  | [], m => m
  | el :: els, m =>
    let m := aset m key (setUnion ((alookup m key).getD []) ((alookup m (base el)).getD []))
    if canOmit el then firstScan key els m else m

/-- One full `while (changed)` pass of `Parser.first` over all rules. -/
def firstPass (rules : RuleSet) (m : List (String × List String)) :
    List (String × List String) :=
  rules.foldl (fun m kv => kv.2.foldl (fun m rule => firstScan kv.1 rule m) m) m

/-- The fixpoint loop of `Parser.first`, with fuel.  The JS loop tracks
per-key size growth; since the sets only grow, "some set grew during the
pass" is exactly "the map changed". -/
def firstIter (rules : RuleSet) :
    Nat → List (String × List String) → Option (List (String × List String))
  | 0, _ => none
  | fuel + 1, m =>
    let m' := firstPass rules m
    if m' = m then some m' else firstIter rules fuel m'

/-- `Parser.first(rules)`: the FIRST sets of all elements. -/
def first (rules : RuleSet) (fuel : Nat) : Option (List (String × List String)) :=
  firstIter rules fuel (firstInit rules)

/-- The `j = i+1 … n` scan of one `Parser.follow` pass for the non-terminal
`el` at some position of a rule of `key`: union in the FIRST of each following
element while omissible; when the scan falls off the end of the rule, union in
the FOLLOW of `key` instead. -/
def followScan (firstM : List (String × List String)) (key el : String) :
    List String → List (String × List String) → List (String × List String)
  | [], m => aset m el (setUnion ((alookup m el).getD []) ((alookup m key).getD []))
  | nx :: rest, m =>
    let m := aset m el (setUnion ((alookup m el).getD []) ((alookup firstM (base nx)).getD []))
    if canOmit nx then followScan firstM key el rest m else m

/-- The position scan of one `Parser.follow` pass over one rule: at each
non-terminal element, add the FIRST of itself when the element is repeatable,
then run the forward scan. -/
def followPositions (rules : RuleSet) (firstM : List (String × List String)) (key : String) :
    List String → List (String × List String) → List (String × List String)
  | [], m => m
  | elFull :: rest, m =>
    let el := base elFull
    let m :=
      if (alookup rules el).isSome then
        let m :=
          if canRepeat elFull then
            aset m el (setUnion ((alookup m el).getD []) ((alookup firstM el).getD []))
          else m
        followScan firstM key el rest m
      else m
    followPositions rules firstM key rest m

/-- One full pass of `Parser.follow`. -/
def followPass (rules : RuleSet) (firstM : List (String × List String))
    (m : List (String × List String)) : List (String × List String) :=
  rules.foldl (fun m kv => kv.2.foldl (fun m rule => followPositions rules firstM kv.1 rule m) m) m

/-- The fixpoint loop of `Parser.follow`, with fuel. -/
def followIter (rules : RuleSet) (firstM : List (String × List String)) :
    Nat → List (String × List String) → Option (List (String × List String))
  | 0, _ => none
  | fuel + 1, m =>
    let m' := followPass rules firstM m
    if m' = m then some m' else followIter rules firstM fuel m'

/-- `Parser.follow(rules, start)`: the FOLLOW sets of the non-terminals;
`follow[start]` starts out as `{$}`.  (The JS source crashes when `start` is
not a rule key; the model appends the key instead — all claims use rule-set
start symbols.) -/
def follow (rules : RuleSet) (start : String) (fuel : Nat) :
    Option (List (String × List String)) :=
  match first rules fuel with
  | none => none
  | some firstM =>
    let init := rules.foldl (fun m kv => aset m kv.1 ([] : List String)) []
    let init := aset init start (setAdd ((alookup init start).getD []) "$")
    followIter rules firstM fuel init

/-- The advancing scan of `Parser.skipOmit` from position `i`, with the number
of remaining positions as structural counter. -/
def skipOmitGo (root : DottedRule) : Nat → Nat → List DottedRule
  | _, 0 => []
  | i, n + 1 =>
    match root.children.get? i with
    | some el =>
      if canOmit el then ⟨root.key, root.children, i + 1⟩ :: skipOmitGo root (i + 1) n
      else []
    | none => []

/-- `Parser.skipOmit(root)`: the item itself plus one item per consecutive
omissible element at the dot, each with the dot advanced past it. -/
def skipOmit (root : DottedRule) : List DottedRule :=
  root :: skipOmitGo root root.dot (root.children.length - root.dot)

/-- Expansion of a single worklist item inside `Parser.closure`: if a
non-terminal follows the dot, add `skipOmit` of each of its productions at dot
0, deduplicating structurally. -/
def closureStep (rules : RuleSet) (acc : List DottedRule) (rule : DottedRule) :
    List DottedRule :=
  match rule.children.get? rule.dot with
  | none => acc
  | some elAtDot =>
    match alookup rules (base elAtDot) with
    | none => acc
    | some ruleList =>
      ruleList.foldl (fun acc children =>
        (skipOmit ⟨base elAtDot, children, 0⟩).foldl (fun acc nextRule =>
          if acc.contains nextRule then acc else acc ++ [nextRule]) acc) acc

/-- The growing `for (const rule of ruleSet)` worklist loop of
`Parser.closure`, with fuel; `p` is the read cursor. -/
def closureLoop (rules : RuleSet) : Nat → List DottedRule → Nat → Option (List DottedRule)
  | 0, _, _ => none
  | fuel + 1, acc, p =>
    match acc.get? p with
    | none => some acc
    | some rule => closureLoop rules fuel (closureStep rules acc rule) (p + 1)

/-- `Parser.closure(rules, root)`: expands the non-terminals after the dot
recursively, starting from `skipOmit` of the root. -/
def closure (rules : RuleSet) (fuel : Nat) (root : DottedRule) : Option (List DottedRule) :=
  closureLoop rules fuel (skipOmit root) 0

/-- One slot of a shift action's `cameFrom` array.  `hole` is an unset slot of
the sparse JS array; `nullv` is the `null` that `JSON.stringify`/`JSON.parse`
turn a hole into — only tables loaded from persistence contain it. -/
inductive CFEntry where
  | idx (n : Nat)
  | nullv
  | hole
deriving DecidableEq, Repr

/-- Reading `cameFrom[p]` inside `Parser.goto`'s conflict checks: a number is
defined (`!== undefined`), a hole or off-the-end read is not.  (`goto` never
produces `nullv`.) -/
def cfGet (cf : List CFEntry) (p : Nat) : Option Nat :=
  match cf.get? p with
  | some (.idx n) => some n
  | _ => none

/-- An action of the parse table. -/
inductive Action where
  | shift (goto : Nat) (cameFrom : List CFEntry)
  | reduce (key : String) (rule : Nat)
  | accept (key : String)
deriving DecidableEq, Repr

/-- The `type` tag of an action, as interpolated into conflict messages. -/
def actionKind : Action → String
  | .shift _ _ => "shift"
  | .reduce _ _ => "reduce"
  | .accept _ => "accept"

/-- A table-construction failure.  The source throws
`Error("Rule <key> - <children> is part of a <kind1>/<kind2> conflict")`;
the message's variable parts are carried structurally. -/
inductive BuildError where
  | conflict (key : String) (children : Rule) (kind1 kind2 : String)
deriving DecidableEq, Repr

/-- Pads the `cameFrom` array with holes up to `n` slots, as the sparse
assignment `cameFrom[n] = i` does to a shorter JS array. -/
def cfPad (cf : List CFEntry) (n : Nat) : List CFEntry :=
  cf ++ List.replicate (n - cf.length) .hole

/-- Processing of one closure item inside `Parser.goto`: dedup against the
output, record `cameFrom` when the item is in the advanced item's `skipOmit`
chain (`trackedRules`), and raise the reduce/reduce conflict on incompatible
entries. -/
def gotoAdd (i : Nat) (srcRule : DottedRule) (tracked : List DottedRule)
    (st : List DottedRule × List CFEntry) (nextRule : DottedRule) :
    Except BuildError (List DottedRule × List CFEntry) :=
  match st.1.findIdx? (fun r => r == nextRule) with
  | none =>
    if tracked.contains nextRule then
      .ok (st.1 ++ [nextRule], cfPad st.2 st.1.length ++ [.idx i])
    else .ok (st.1 ++ [nextRule], st.2)
  | some ruleIndex =>
    let t := tracked.contains nextRule
    if (t && !(cfGet st.2 ruleIndex == some i)) || (!t && (cfGet st.2 ruleIndex).isSome) then
      .error (.conflict srcRule.key srcRule.children "reduce" "reduce")
    else .ok st

/-- Folds `gotoAdd` over the closure items of one `j` iteration. -/
def gotoAddList (i : Nat) (srcRule : DottedRule) (tracked : List DottedRule) :
    List DottedRule → List DottedRule × List CFEntry →
    Except BuildError (List DottedRule × List CFEntry)
  | [], st => .ok st
  | r :: rs, st =>
    match gotoAdd i srcRule tracked st r with
    | .error e => .error e
    | .ok st' => gotoAddList i srcRule tracked rs st'

/-- One `j` iteration of `Parser.goto` for source item `i`: advance the dot by
`j`, compute the tracked `skipOmit` chain and the closure of the advanced
item, and merge the closure items into the output. -/
def gotoJ (rules : RuleSet) (fuel : Nat) (i : Nat) (srcRule : DottedRule) (j : Nat)
    (st : List DottedRule × List CFEntry) :
    Except BuildError (Option (List DottedRule × List CFEntry)) :=
  let baseRule : DottedRule := ⟨srcRule.key, srcRule.children, srcRule.dot + j⟩
  match closure rules fuel baseRule with
  | none => .ok none
  | some cls =>
    match gotoAddList i srcRule (skipOmit baseRule) cls st with
    | .error e => .error e
    | .ok st' => .ok (some st')

/-- The source-item loop of `Parser.goto` (`i` indexes `ruleSet`): for each
item recognizing `el`, run `j = 1` and — when the recognized element is
repeatable — also `j = 0` (the dot stays on the repeated element). -/
def gotoLoop (rules : RuleSet) (fuel : Nat) (el : String) :
    List DottedRule → Nat → List DottedRule × List CFEntry →
    Except BuildError (Option (List DottedRule × List CFEntry))
  | [], _, st => .ok (some st)
  | rule :: rest, i, st =>
    if (rule.children.get? rule.dot).map base = some el then
      match gotoJ rules fuel i rule 1 st with
      | .error e => .error e
      | .ok none => .ok none
      | .ok (some st1) =>
        if canRepeat ((rule.children.get? rule.dot).getD "") then
          match gotoJ rules fuel i rule 0 st1 with
          | .error e => .error e
          | .ok none => .ok none
          | .ok (some st2) => gotoLoop rules fuel el rest (i + 1) st2
        else gotoLoop rules fuel el rest (i + 1) st1
    else gotoLoop rules fuel el rest (i + 1) st

/-- `Parser.goto(rules, ruleSet, el)`: the successor item set and its
`cameFrom` array. -/
def goto (rules : RuleSet) (fuel : Nat) (ruleSet : List DottedRule) (el : String) :
    Except BuildError (Option (List DottedRule × List CFEntry)) :=
  gotoLoop rules fuel el ruleSet 0 ([], [])

/-- One action-table row: an insertion-ordered association of lookahead symbol
to action. -/
abbrev Row := List (String × Action)

/-- Adds the reduce action of a completed item to the row under every symbol
of the FOLLOW set, raising the conflict error on a double entry. -/
def addReduces (key : String) (children : Rule) (j : Nat) :
    List String → Row → Except BuildError Row
  | [], row => .ok row
  | el :: els, row =>
    match alookup row el with
    | some a => .error (.conflict key children (actionKind a) "reduce")
    | none => addReduces key children j els (row ++ [(el, .reduce key j)])

/-- The per-item loop of `Parser.buildTable` for the state with items
`stateItems`: `j` is the item index, `states` the canonical collection so far
(it may grow when a goto target is new), `row` the action row being filled. -/
def buildState (rules : RuleSet) (fuel : Nat) (followM : List (String × List String))
    (start : String) (stateItems : List DottedRule) :
    List DottedRule → Nat → List (List DottedRule) → Row →
    Except BuildError (Option (List (List DottedRule) × Row))
  | [], _, states, row => .ok (some (states, row))
  | rule :: rest, j, states, row =>
    if rule.dot = rule.children.length then
      if rule.key = start then
        match alookup row "$" with
        | some a => .error (.conflict rule.key rule.children (actionKind a) "reduce")
        | none =>
          buildState rules fuel followM start stateItems rest (j + 1) states
            (row ++ [("$", .accept start)])
      else
        match addReduces rule.key rule.children j ((alookup followM rule.key).getD []) row with
        | .error e => .error e
        | .ok row' => buildState rules fuel followM start stateItems rest (j + 1) states row'
    else
      match alookup row (base ((rule.children.get? rule.dot).getD "")) with
      | some a =>
        if actionKind a = "shift" then
          buildState rules fuel followM start stateItems rest (j + 1) states row
        else .error (.conflict rule.key rule.children "shift" (actionKind a))
      | none =>
        match goto rules fuel stateItems (base ((rule.children.get? rule.dot).getD "")) with
        | .error e => .error e
        | .ok none => .ok none
        | .ok (some (gotoState, cf)) =>
          match states.findIdx? (fun s => s == gotoState) with
          | some g =>
            buildState rules fuel followM start stateItems rest (j + 1) states
              (row ++ [(base ((rule.children.get? rule.dot).getD ""), .shift g cf)])
          | none =>
            buildState rules fuel followM start stateItems rest (j + 1)
              (states ++ [gotoState])
              (row ++ [(base ((rule.children.get? rule.dot).getD ""), .shift states.length cf)])

/-- The state loop of `Parser.buildTable`, processing states in discovery
order, with fuel. -/
def buildLoop (rules : RuleSet) (fuel : Nat) (followM : List (String × List String))
    (start : String) : Nat → List (List DottedRule) → Nat → List Row →
    Except BuildError (Option (List (List DottedRule) × List Row))
  | 0, _, _, _ => .ok none
  | f + 1, states, i, table =>
    match states.get? i with
    | none => .ok (some (states, table))
    | some st =>
      match buildState rules fuel followM start st st 0 states [] with
      | .error e => .error e
      | .ok none => .ok none
      | .ok (some (states', row)) =>
        buildLoop rules fuel followM start f states' (i + 1) (table ++ [row])

/-- `Parser.buildTable(rules, start)`, with the canonical collection also
returned (the source keeps `states` local to the build; claims about reduce
widths refer to its items). -/
def buildTableAux (rules : RuleSet) (start : String) (fuel : Nat) :
    Except BuildError (Option (List (List DottedRule) × List Row)) :=
  match closure rules fuel ⟨start, [start], 0⟩ with
  | none => .ok none
  | some st0 =>
    match follow rules start fuel with
    | none => .ok none
    | some followM => buildLoop rules fuel followM start fuel [st0] 0 []

/-- The action table alone, as `Parser.buildTable` returns it. -/
def buildTable (rules : RuleSet) (start : String) (fuel : Nat) :
    Except BuildError (Option (List Row)) :=
  match buildTableAux rules start fuel with
  | .error e => .error e
  | .ok none => .ok none
  | .ok (some st) => .ok (some st.2)

end Parser

/-- A parse-tree node: either a lexed leaf (`LexTree`) or an internal node
with ordered children (`ParseTree`); the union is discriminated by the
presence of `children`. -/
inductive PTree where
  | leaf (token : LexTree)
  | node (type : String) (children : List PTree)

/-- The `type` of a node of the `ParseTree | LexTree` union. -/
def PTree.type : PTree → String
  | .leaf t => t.type
  | .node ty _ => ty

namespace Parser

/-- Reading a sparse `readStack` entry: `entry[r]`, which is `undefined` when
out of range or at a hole. -/
def sparseGet (entry : List (Option Nat)) (r : Nat) : Option Nat :=
  match entry.get? r with
  | some v => v
  | none => none

/-- The new `readStack` entry pushed after a shift:
`action.cameFrom.map(rule => rule !== undefined ? (readStack[readStack.length - 1][rule] || 0) + 1 : undefined)`.
A stored count is never `0`, so `(x || 0)` is exactly `getD 0` on the sparse
read.  A `null` slot (from a persisted table) passes the `!== undefined` test
and indexes the previous entry at the key `"null"`, reading `undefined`, so it
counts as `1`; a hole is preserved as a hole (JS `map` skips holes). -/
def mkReadEntry (cf : List Parser.CFEntry) (prev : List (Option Nat)) : List (Option Nat) :=
  cf.map (fun e =>
    match e with
    | .idx r => some ((sparseGet prev r).getD 0 + 1)
    | .nullv => some 1
    | .hole => none)

/-- The per-call state of `Parser.parse` at the top of its main loop.  The
three stacks are top-first (JS pushes at the array end); `i` is the cursor
into the outer token sequence, `index` the column inside the current unknown
line, `lexToken` the pending lexed token. -/
structure Config where
  symbolStack : List PTree
  readStack : List (List (Option Nat))
  stateStack : List Nat
  i : Nat
  lexToken : Option LexTree
  index : Nat

/-- The result of one main-loop iteration of `Parser.parse`: continue with a
new state, return the parse tree, throw a `ParseError`, or crash with a JS
`TypeError` (an `undefined` dereference the source does not guard against). -/
inductive StepResult where
  | next (c : Config)
  | done (t : PTree)
  | fail (e : ParseError)
  | crash (msg : String)

/-- The dispatch part of one `Parser.parse` iteration, once the current token
is determined: skip whitespace, look the action up
(`actionTable[stateStack[top]][token.type]`), and shift / reduce / accept.
Crashes model the JS `TypeError`s of the unguarded paths: a missing state row,
an undefined `readStack` count (`splice(NaN)` empties the stacks and the
follow-up `actionTable[undefined][…]` access throws), an empty state stack
after the reduce pops, and a missing or non-shift goto action (whose
`action.cameFrom.map` dereference throws).  A stored count `n` is at least 1,
so `splice(-n)` is exactly `drop n` / `take n`. -/
def dispatch (table : List Row) (cfg : Config) (token : LexTree) : StepResult :=
  if token.type == "whitespace" then
    .next { cfg with i := if cfg.lexToken.isNone then cfg.i + 1 else cfg.i, lexToken := none }
  else
    match cfg.stateStack.head? with
    | none => .crash "TypeError"
    | some s =>
      match table.get? s with
      | none => .crash "TypeError"
      | some row =>
        match alookup row token.type with
        | none => .fail ⟨"Parser failed to parse symbol", token.line, token.index⟩
        | some (.shift g cf) =>
          .next { symbolStack := .leaf token :: cfg.symbolStack,
                  readStack := mkReadEntry cf (cfg.readStack.headD []) :: cfg.readStack,
                  stateStack := g :: cfg.stateStack,
                  i := if cfg.lexToken.isNone then cfg.i + 1 else cfg.i,
                  lexToken := none, index := cfg.index }
        | some (.reduce key ruleIdx) =>
          match sparseGet (cfg.readStack.headD []) ruleIdx with
          | none => .crash "TypeError"
          | some n =>
            let parent := PTree.node key (cfg.symbolStack.take n).reverse
            let symbolStack' := cfg.symbolStack.drop n
            let readStack' := cfg.readStack.drop n
            let stateStack' := cfg.stateStack.drop n
            match stateStack'.head? with
            | none => .crash "TypeError"
            | some s' =>
              match table.get? s' with
              | none => .crash "TypeError"
              | some row' =>
                match alookup row' key with
                | some (.shift g cf) =>
                  .next { symbolStack := parent :: symbolStack',
                          readStack := mkReadEntry cf (readStack'.headD []) :: readStack',
                          stateStack := g :: stateStack',
                          i := cfg.i, lexToken := cfg.lexToken, index := cfg.index }
                | _ => .crash "TypeError"
        | some (.accept key) => .done (.node key cfg.symbolStack.reverse)

/-- One iteration of the main loop of `Parser.parse`: determine the current
token — lexing the pending `unknown` token on demand, with the current
action-table row as the active-terminal hint — and dispatch.  When the lexer
reports `$` the line is exhausted: advance `i`, reset `index`, continue. -/
def parseStep (lexer : List Terminal) (table : List Row) (tokens : List LexTree)
    (cfg : Config) : StepResult :=
  match cfg.lexToken with
  | some ltok => dispatch table cfg ltok
  | none =>
    match tokens.get? cfg.i with
    | none => .crash "TypeError"
    | some tok =>
      if tok.type == "unknown" then
        let active := (cfg.stateStack.head?.bind (fun s => table.get? s)).map
          (fun row => row.map (fun kv => kv.1))
        match Lexer.next lexer tok cfg.index active with
        | .error e => .fail e
        | .ok ltok =>
          if ltok.type == "$" then
            .next { cfg with i := cfg.i + 1, lexToken := none, index := 0 }
          else
            dispatch table
              { cfg with lexToken := some ltok,
                         index := cfg.index + (ltok.matchA.headD "").length } ltok
      else dispatch table cfg tok

/-- The outcome of running the main loop with a fuel bound: returned tree,
thrown `ParseError`, crash, or still running when the fuel ran out. -/
inductive ParseOutcome where
  | finished (t : PTree)
  | failed (e : ParseError)
  | crashed (msg : String)
  | running (c : Config)

/-- The main loop of `Parser.parse`, with fuel. -/
def parseLoop (lexer : List Terminal) (table : List Row) (tokens : List LexTree) :
    Nat → Config → ParseOutcome
  | 0, cfg => .running cfg
  | fuel + 1, cfg =>
    match parseStep lexer table tokens cfg with
    | .next c => parseLoop lexer table tokens fuel c
    | .done t => .finished t
    | .fail e => .failed e
    | .crash m => .crashed m

/-- The initial per-call state of `Parser.parse`: empty symbol stack, initial
read-stack entry `[]`, state stack `[0]`. -/
def initConfig : Config := ⟨[], [[]], [0], 0, none, 0⟩

/-- `Parser.parse(lexer, tokens)`, with fuel. -/
def parse (lexer : List Terminal) (table : List Row) (tokens : List LexTree)
    (fuel : Nat) : ParseOutcome :=
  parseLoop lexer table tokens fuel initConfig

/-- The configurations `Parser.parse` can be in at the top of its main loop:
reachable from the initial state by loop iterations. -/
def Reachable (lexer : List Terminal) (table : List Row) (tokens : List LexTree)
    (cfg : Config) : Prop :=
  Relation.ReflTransGen (fun a b => parseStep lexer table tokens a = .next b) initConfig cfg

/-- The effect of `JSON.parse(JSON.stringify(actionTable))` — the
`dsl-parser_v<version>.json` persistence round trip of the `Parser`
constructor — on one `cameFrom` slot: numbers survive, but every hole of the
sparse array is serialized as `null`. -/
def roundTripCF : Parser.CFEntry → Parser.CFEntry
  | .hole => .nullv
  | e => e

/-- The persistence round trip of one action: only shift actions carry a
`cameFrom` array; numbers, strings and object layout round-trip exactly. -/
def roundTripAction : Parser.Action → Parser.Action
  | .shift g cf => .shift g (cf.map roundTripCF)
  | a => a

/-- The persistence round trip of the whole action table. -/
def roundTripTable (table : List Row) : List Row :=
  table.map (fun row => row.map (fun kv => (kv.1, roundTripAction kv.2)))

end Parser

/-- The outcome of a visitor dispatch: a value, a thrown `Error(message)`, or
fuel exhaustion of the model (the JS recursion has no fuel). -/
inductive VisitOut (T : Type) where
  | result (t : T)
  | error (msg : String)
  | fuelOut

mutual

/-- `Visitor.visit(state, tree)`: dispatch on the `visit_<type>` method when
the visitor has one; otherwise fall back to visiting the children of an
internal node, and throw for a leaf.  The visitor's method table
(`this.constructor.prototype`) is modelled as an association list from method
name to handler. -/
def Visitor.visit {S T : Type} (methods : List (String × (S → PTree → VisitOut T))) :
    Nat → S → PTree → VisitOut T
  | 0, _, _ => .fuelOut
  | fuel + 1, state, tree =>
    match alookup methods ("visit_" ++ tree.type) with
    | some f => f state tree
    | none =>
      match tree with
      | .node _ children => Visitor.visitChildren methods fuel state children
      | .leaf _ => .error "Each terminal should have a corresponding visit method"
termination_by fuel _ _ => (fuel, 0)

/-- `Visitor.visitChildren(state, tree)`: visit every child in order and
return the result of the last.  (On an empty children array the JS source
dereferences `undefined` and throws; modelled as a crash error.) -/
def Visitor.visitChildren {S T : Type} (methods : List (String × (S → PTree → VisitOut T))) :
    Nat → S → List PTree → VisitOut T
  | _, _, [] => .error "TypeError"
  | fuel, state, [c] => Visitor.visit methods fuel state c
  | fuel, state, c :: c2 :: cs =>
    match Visitor.visit methods fuel state c with
    | .result _ => Visitor.visitChildren methods fuel state (c2 :: cs)
    | .error m => .error m
    | .fuelOut => .fuelOut
termination_by fuel _ l => (fuel, l.length + 1)

end

/-! Concrete grammars instantiating the claims. -/

/-- The spec's quantifier scenario: `list → "[" item* "]"`, `item → "a"`. -/
def listRules : RuleSet := [("list", [["[", "item*", "]"]]), ("item", [["a"]])]

/-- Its lexer: the three auto-promoted literal terminals `[`, `]`, `a`. -/
def listLexer : List Terminal := Parser.terminalsOf listRules []

/-- Its action table (fuel 50 is ample; the tying equation is proved in the
claim theorems). -/
def listTable : List Parser.Row :=
  ((Parser.buildTable listRules "list" 50).toOption.getD none).getD []

/-- A grammar whose goto produces a `cameFrom` array with an interior hole:
`S → "a" A | "a" B`, `A → "x"`, `B → "y"`. -/
def abRules : RuleSet := [("S", [["a", "A"], ["a", "B"]]), ("A", [["x"]]), ("B", [["y"]])]

/-- Its lexer: auto-promoted literals `a`, `x`, `y`. -/
def abLexer : List Terminal := Parser.terminalsOf abRules []

/-- Its action table. -/
def abTable : List Parser.Row :=
  ((Parser.buildTable abRules "S" 50).toOption.getD none).getD []

/-- A minimal quantifier-free grammar with an inner reduction:
`root → X`, `X → "a"`. -/
def unitRules : RuleSet := [("root", [["X"]]), ("X", [["a"]])]

/-- Its lexer: the auto-promoted literal `a`. -/
def unitLexer : List Terminal := Parser.terminalsOf unitRules []

/-- Its canonical collection and action table. -/
def unitBuild : List (List DottedRule) × List Parser.Row :=
  ((Parser.buildTableAux unitRules "root" 50).toOption.getD none).getD ([], [])

/-- The C8 invariant: `symbolStack` is one shorter than `stateStack` (state 0
has no symbol beneath it), and `readStack` is aligned with `stateStack`. -/
def stacksAligned (cfg : Parser.Config) : Prop :=
  cfg.symbolStack.length + 1 = cfg.stateStack.length ∧
    cfg.readStack.length = cfg.stateStack.length

/-- A rule none of whose elements carries a `?`, `*` or `+` quantifier. -/
def plainRule (children : Rule) : Bool :=
  children.all (fun el => !Parser.canOmit el && !Parser.canRepeat el)

/-- An item introduced by closure expansion: dot-0 (possibly `skipOmit`ted)
item of a grammar production. -/
def closureIntro (rules : RuleSet) (r : DottedRule) : Prop :=
  ∃ nt rl ch, alookup rules nt = some rl ∧ ch ∈ rl ∧ r ∈ Parser.skipOmit ⟨nt, ch, 0⟩

/-- The invariant of `Parser.goto`'s output relating items, their `cameFrom`
entries and the source item set, for quantifier-free rules: a plain item with
the dot past 0 is tracked, and its entry points at its direct predecessor (the
same rule with the dot one left, recognizing `el`); a plain dot-0 item is
untracked; `goto` never emits `null` entries; the entry array is no longer
than the item list. -/
def gotoInv (ruleSet : List DottedRule) (el : String)
    (st : List DottedRule × List Parser.CFEntry) : Prop :=
  (∀ p r, st.1.get? p = some r → plainRule r.children = true → 1 ≤ r.dot →
    ∃ i src, Parser.cfGet st.2 p = some i ∧ ruleSet.get? i = some src ∧
      src.key = r.key ∧ src.children = r.children ∧ src.dot + 1 = r.dot ∧
      (src.children.get? src.dot).map Parser.base = some el)
  ∧ (∀ p r, st.1.get? p = some r → plainRule r.children = true → r.dot = 0 →
      st.2.get? p = none ∨ st.2.get? p = some .hole)
  ∧ (∀ p, st.2.get? p ≠ some .nullv)
  ∧ st.2.length ≤ st.1.length

/-- What one row of a built action table guarantees, relative to the items
`stateItems` of its state and the canonical collection `states`: a reduce
entry points at a completed item of the state with a non-start key, and a
shift entry stores exactly the `goto` of the state on the looked-up symbol,
with the target state in the collection. -/
def rowInv (rules : RuleSet) (fuel : Nat) (start : String)
    (states : List (List DottedRule)) (stateItems : List DottedRule)
    (row : Parser.Row) : Prop :=
  ∀ key a, alookup row key = some a →
    (∀ k j, a = .reduce k j → ∃ item, stateItems.get? j = some item ∧
      item.dot = item.children.length ∧ item.key = k ∧ k ≠ start)
    ∧ (∀ g cf, a = .shift g cf → ∃ st', states.get? g = some st' ∧
      Parser.goto rules fuel stateItems key = .ok (some (st', cf)))

/-- Every item of every state of the canonical collection is a grammar item
(or the synthetic start item). -/
def statesInv (rules : RuleSet) (start : String)
    (states : List (List DottedRule)) : Prop :=
  ∀ st ∈ states, ∀ item ∈ st,
    (∃ rl, alookup rules item.key = some rl ∧ item.children ∈ rl) ∨
      (item.key = start ∧ item.children = [start])

/-- The per-row guarantee over the whole table. -/
def tableInv (rules : RuleSet) (fuel : Nat) (start : String)
    (states : List (List DottedRule)) (table : List Parser.Row) : Prop :=
  ∀ s row, table.get? s = some row → ∃ stateItems,
    states.get? s = some stateItems ∧
      rowInv rules fuel start states stateItems row

/-- The runtime width-tracking invariant (C1) on a state-stack /
read-stack pair: for every level, the `readStack` entry of that level holds,
at the index of any quantifier-free item of the level's state, exactly that
item's dot position when the dot is past 0, and nothing when the dot is at
0. -/
def stacksInv (states : List (List DottedRule)) (stateStack : List Nat)
    (readStack : List (List (Option Nat))) : Prop :=
  readStack.length = stateStack.length ∧
  ∀ k s, stateStack.get? k = some s → ∃ st, states.get? s = some st ∧
    ∀ j item, st.get? j = some item → plainRule item.children = true →
      (1 ≤ item.dot →
        Parser.sparseGet ((readStack.get? k).getD []) j = some item.dot) ∧
      (item.dot = 0 →
        Parser.sparseGet ((readStack.get? k).getD []) j = none)

/-- The C1 invariant on a runtime configuration. -/
def runInv (states : List (List DottedRule)) (cfg : Parser.Config) : Prop :=
  stacksInv states cfg.stateStack cfg.readStack

/-! Helper lemmas characterizing the terminal scan of `Lexer.next`. -/


theorem nextLoop_ok_first_match {line : String} {tokIndex tokLine index : Nat}
    {active : Option (List String)} :
    ∀ (ts : List Terminal) (r : LexTree),
      Lexer.nextLoop line tokIndex tokLine index active ts = .ok r →
      ∃ pre t post m, ts = pre ++ t :: post ∧
        Lexer.eligible active t.type = true ∧
        t.pattern line index = some m ∧
        (∀ t' ∈ pre, Lexer.eligible active t'.type = true → t'.pattern line index = none) ∧
        r = ⟨t.type, m, tokIndex + index, tokLine⟩ := by
  intro ts
  induction ts with
  | nil => intro r h; simp [Lexer.nextLoop] at h
  | cons t ts ih =>
    intro r h
    rw [Lexer.nextLoop] at h
    by_cases he : Lexer.eligible active t.type
    · rw [if_pos he] at h
      cases hp : t.pattern line index with
      | some m =>
        rw [hp] at h
        refine ⟨[], t, ts, m, by simp, he, hp, by simp, ?_⟩
        simpa using h.symm
      | none =>
        rw [hp] at h
        obtain ⟨pre, t', post, m, hts, he', hp', hpre, hr⟩ := ih r h
        refine ⟨t :: pre, t', post, m, by simp [hts], he', hp', ?_, hr⟩
        intro u hu heu
        rcases List.mem_cons.mp hu with rfl | hu
        · exact hp
        · exact hpre u hu heu
    · rw [if_neg he] at h
      obtain ⟨pre, t', post, m, hts, he', hp', hpre, hr⟩ := ih r h
      refine ⟨t :: pre, t', post, m, by simp [hts], he', hp', ?_, hr⟩
      intro u hu heu
      rcases List.mem_cons.mp hu with rfl | hu
      · exact absurd heu he
      · exact hpre u hu heu

theorem nextLoop_error_no_match {line : String} {tokIndex tokLine index : Nat}
    {active : Option (List String)} :
    ∀ (ts : List Terminal) (e : ParseError),
      Lexer.nextLoop line tokIndex tokLine index active ts = .error e →
      e = ⟨"Lexer failed to recognize symbol", tokLine, tokIndex + index⟩ ∧
        ∀ t ∈ ts, Lexer.eligible active t.type = true → t.pattern line index = none := by
  intro ts
  induction ts with
  | nil =>
    intro e h
    rw [Lexer.nextLoop] at h
    exact ⟨by cases h; rfl, by simp⟩
  | cons t ts ih =>
    intro e h
    rw [Lexer.nextLoop] at h
    by_cases he : Lexer.eligible active t.type
    · rw [if_pos he] at h
      cases hp : t.pattern line index with
      | some m => rw [hp] at h; cases h
      | none =>
        rw [hp] at h
        obtain ⟨he', hall⟩ := ih e h
        refine ⟨he', ?_⟩
        intro u hu heu
        rcases List.mem_cons.mp hu with rfl | hu
        · exact hp
        · exact hall u hu heu
    · rw [if_neg he] at h
      obtain ⟨he', hall⟩ := ih e h
      refine ⟨he', ?_⟩
      intro u hu heu
      rcases List.mem_cons.mp hu with rfl | hu
      · exact absurd heu he
      · exact hall u hu heu

/-- C5: `Lexer.next` returns a synthetic `$` token at or past end of line;
otherwise, a successful result is the token of the first terminal in
declaration order that is eligible (no `active` map, or its type a key of
`active`, or type `whitespace`) and whose anchored pattern matches at `index`,
with every earlier eligible terminal failing to match; and a failure means no
eligible terminal matched, with the `LEX_UNRECOGNIZED` error carrying the line
and column. -/
theorem next_first_eligible_match (terminals : List Terminal) (token : LexTree)
    (index : Nat) (active : Option (List String)) :
    ((token.matchA.headD "").length ≤ index →
      Lexer.next terminals token index active =
        .ok ⟨"$", [""], token.index + index, token.line⟩)
    ∧ (index < (token.matchA.headD "").length →
      (∀ r, Lexer.next terminals token index active = .ok r →
        ∃ pre t post m, terminals = pre ++ t :: post ∧
          Lexer.eligible active t.type = true ∧
          t.pattern (token.matchA.headD "") index = some m ∧
          (∀ t' ∈ pre, Lexer.eligible active t'.type = true →
            t'.pattern (token.matchA.headD "") index = none) ∧
          r = ⟨t.type, m, token.index + index, token.line⟩)
      ∧ (∀ e, Lexer.next terminals token index active = .error e →
          e = ⟨"Lexer failed to recognize symbol", token.line, token.index + index⟩ ∧
            ∀ t ∈ terminals, Lexer.eligible active t.type = true →
              t.pattern (token.matchA.headD "") index = none)) := by
  constructor
  · intro hle
    rw [Lexer.next, if_pos hle]
  · intro hlt
    have hnot : ¬ ((token.matchA.headD "").length ≤ index) := by omega
    constructor
    · intro r h
      rw [Lexer.next, if_neg hnot] at h
      exact nextLoop_ok_first_match terminals r h
    · intro e h
      rw [Lexer.next, if_neg hnot] at h
      exact nextLoop_error_no_match terminals e h

/-- Witness for C5 at a concrete input: past end of line, `next` yields `$`. -/
theorem next_first_eligible_match_witness :
    Lexer.next [⟨"a", litPattern "a"⟩] ⟨"unknown", ["b"], 0, 0⟩ 5 none =
      .ok ⟨"$", [""], 5, 0⟩ :=
  (next_first_eligible_match [⟨"a", litPattern "a"⟩] ⟨"unknown", ["b"], 0, 0⟩ 5 none).1
    (by decide)

/-- The inner lex loop on the line `"b"` with the zero-width-matching terminal
`/a*/` never stops and never throws: the index never advances. -/
theorem lexLine_zero_width : ∀ (fuel : Nat) (acc : List LexTree),
    Lexer.lexLine [⟨"star", starPattern 'a'⟩] ⟨"unknown", ["b"], 0, 0⟩ fuel 0 acc = .ok none
  | 0, _ => rfl
  | fuel + 1, acc => by
    have h : Lexer.lexLine [⟨"star", starPattern 'a'⟩] ⟨"unknown", ["b"], 0, 0⟩ (fuel + 1) 0 acc =
        Lexer.lexLine [⟨"star", starPattern 'a'⟩] ⟨"unknown", ["b"], 0, 0⟩ fuel 0
          (acc ++ [⟨"star", [""], 0, 0⟩]) := by rfl
    rw [h]
    exact lexLine_zero_width fuel (acc ++ [⟨"star", [""], 0, 0⟩])

/-- C6 (documents the code bug): with a terminal whose pattern produces a
zero-width match (`/a*/` on the line `"b"`), `Lexer.next` accepts the
zero-width token instead of failing, and `Lexer.lex` neither terminates nor
raises `LEX_UNRECOGNIZED`: for every fuel bound the loop is still running
(`.ok none`), the index never having advanced. -/
theorem lex_zero_width_never_fails :
    (Lexer.next [⟨"star", starPattern 'a'⟩] ⟨"unknown", ["b"], 0, 0⟩ 0 none =
      .ok ⟨"star", [""], 0, 0⟩)
    ∧ ∀ fuel, Lexer.lex [⟨"star", starPattern 'a'⟩] fuel [⟨"unknown", ["b"], 0, 0⟩] =
        .ok none := by
  constructor
  · rfl
  · intro fuel
    have h := lexLine_zero_width fuel []
    rw [Lexer.lex]
    simp only [h]
    rfl

/-- C7: `splitOffside` on the four-line input `"a\n  b\n  c\nd"` produces
exactly `unknown("a")`, `indent`, `unknown("  b")`, `unknown("  c")`,
`dedent`, `unknown("d")`, `$`, in that order (with the positions the source
attaches). -/
theorem splitOffside_example :
    Lexer.splitOffside "a\n  b\n  c\nd" none = .ok
      [⟨"unknown", ["a"], 0, 0⟩, ⟨"indent", [""], 2, 1⟩, ⟨"unknown", ["  b"], 0, 1⟩,
       ⟨"unknown", ["  c"], 0, 2⟩, ⟨"dedent", [""], 0, 3⟩, ⟨"unknown", ["d"], 0, 3⟩,
       ⟨"$", [""], 1, 3⟩] := by rfl

/-- C9 counterexample: at string level the claimed equation fails even when no
terminal can straddle the boundary (the single terminal is the one-character
literal `"a"`, whose every match has width one): lexing the concatenation
`"a" ++ "a"` is not the concatenation of the two lexes, because each lex output
ends with a positioned `$` token. -/
theorem lex_concat_string_counterexample :
    (Lexer.lex [⟨"a", litPattern "a"⟩] 10 (Lexer.split ("a" ++ "a") none) =
      .ok (some [⟨"a", ["a"], 0, 0⟩, ⟨"a", ["a"], 1, 0⟩, ⟨"$", [""], 2, 0⟩]))
    ∧ (Lexer.lex [⟨"a", litPattern "a"⟩] 10 (Lexer.split "a" none) =
      .ok (some [⟨"a", ["a"], 0, 0⟩, ⟨"$", [""], 1, 0⟩]))
    ∧ ([⟨"a", ["a"], 0, 0⟩, ⟨"a", ["a"], 1, 0⟩, ⟨"$", [""], 2, 0⟩] : List LexTree) ≠
      [⟨"a", ["a"], 0, 0⟩, ⟨"$", [""], 1, 0⟩] ++ [⟨"a", ["a"], 0, 0⟩, ⟨"$", [""], 1, 0⟩] :=
  ⟨by rfl, by rfl, by decide⟩

/-- C9 as amended: the lexer never crosses a token boundary, so `Lexer.lex`
distributes over concatenation of token sequences: whenever both halves lex
successfully, the concatenation lexes to the concatenation of the results. -/
theorem lex_append {terminals : List Terminal} {F : Nat} :
    ∀ (ts1 : List LexTree) {ts2 : List LexTree} {r1 r2 : List LexTree},
      Lexer.lex terminals F ts1 = .ok (some r1) →
      Lexer.lex terminals F ts2 = .ok (some r2) →
      Lexer.lex terminals F (ts1 ++ ts2) = .ok (some (r1 ++ r2)) := by
  intro ts1
  induction ts1 with
  | nil =>
    intro ts2 r1 r2 h1 h2
    rw [Lexer.lex] at h1
    cases h1
    simpa using h2
  | cons t rest ih =>
    intro ts2 r1 r2 h1 h2
    rw [Lexer.lex] at h1
    rw [List.cons_append, Lexer.lex]
    by_cases ht : t.type == "unknown"
    · rw [if_pos ht] at h1 ⊢
      cases hl : Lexer.lexLine terminals t F 0 [] with
      | error e => rw [hl] at h1; cases h1
      | ok o =>
        rw [hl] at h1
        cases o with
        | none => cases h1
        | some toks =>
          cases hr : Lexer.lex terminals F rest with
          | error e => rw [hr] at h1; cases h1
          | ok o' =>
            rw [hr] at h1
            cases o' with
            | none => cases h1
            | some out =>
              cases h1
              rw [ih hr h2]
              simp
    · rw [if_neg ht] at h1 ⊢
      cases hr : Lexer.lex terminals F rest with
      | error e => rw [hr] at h1; cases h1
      | ok o' =>
        rw [hr] at h1
        cases o' with
        | none => cases h1
        | some out =>
          cases h1
          rw [ih hr h2]
          rfl

/-- Witness for the amended C9 at a concrete input. -/
theorem lex_append_witness :
    Lexer.lex [⟨"a", litPattern "a"⟩] 10 (Lexer.split "a" none ++ Lexer.split "a" none) =
      .ok (some ([⟨"a", ["a"], 0, 0⟩, ⟨"$", [""], 1, 0⟩] ++
        [⟨"a", ["a"], 0, 0⟩, ⟨"$", [""], 1, 0⟩])) :=
  lex_append (Lexer.split "a" none) (by rfl) (by rfl)

/-- C2 counterexample: with `list → "[" item* "]"`, `item → "a"` and the
auto-promoted literal terminals, `Parser.parse` on `"[]"` succeeds but returns
a `list` node with two children (the two brackets), not three as claimed. -/
theorem parse_list_empty_not_three_children :
    Parser.buildTable listRules "list" 50 = .ok (some listTable) ∧
    Parser.parse listLexer listTable (Lexer.split "[]" none) 100 =
      .finished (.node "list" [.leaf ⟨"[", ["["], 0, 0⟩, .leaf ⟨"]", ["]"], 1, 0⟩]) ∧
    ([PTree.leaf ⟨"[", ["["], 0, 0⟩, .leaf ⟨"]", ["]"], 1, 0⟩].length = 2 ∧ (2 : Nat) ≠ 3) :=
  ⟨by rfl, by rfl, by rfl, by decide⟩

/-- C2 as amended: on `"[]"` the parse returns a `list` node with two children
(opening and closing bracket); on `"[aaa]"` it returns a `list` node with five
children — opening bracket, three `item` subtrees, closing bracket — in source
order. -/
theorem parse_list_star_children :
    Parser.buildTable listRules "list" 50 = .ok (some listTable) ∧
    Parser.parse listLexer listTable (Lexer.split "[]" none) 100 =
      .finished (.node "list" [.leaf ⟨"[", ["["], 0, 0⟩, .leaf ⟨"]", ["]"], 1, 0⟩]) ∧
    Parser.parse listLexer listTable (Lexer.split "[aaa]" none) 100 =
      .finished (.node "list"
        [.leaf ⟨"[", ["["], 0, 0⟩,
         .node "item" [.leaf ⟨"a", ["a"], 1, 0⟩],
         .node "item" [.leaf ⟨"a", ["a"], 2, 0⟩],
         .node "item" [.leaf ⟨"a", ["a"], 3, 0⟩],
         .leaf ⟨"]", ["]"], 4, 0⟩]) :=
  ⟨by rfl, by rfl, by rfl⟩

/-- C3 (documents the code bug): on the grammar `S → "a" A | "a" B`,
`A → "x"`, `B → "y"`, table construction succeeds and the shift on `"a"`
carries the sparse `cameFrom` array `[1, <hole>, 2]`.  The fresh table parses
`"ax"` to the expected tree; the persisted-and-reloaded table — identical
except that JSON turned the hole into `null`, which the runtime then treats as
a defined entry — over-counts the reduction width and crashes on the same
input. -/
theorem roundtrip_table_divergence :
    Parser.buildTable abRules "S" 50 = .ok (some abTable) ∧
    (alookup (abTable.headD []) "a" =
      some (.shift 2 [.idx 1, .hole, .idx 2])) ∧
    Parser.parse abLexer abTable (Lexer.split "ax" none) 100 =
      .finished (.node "S" [.leaf ⟨"a", ["a"], 0, 0⟩, .node "A" [.leaf ⟨"x", ["x"], 1, 0⟩]]) ∧
    Parser.parse abLexer (Parser.roundTripTable abTable) (Lexer.split "ax" none) 100 =
      .crashed "TypeError" :=
  ⟨by rfl, by rfl, by rfl, by rfl⟩

/-- C10: `Visitor.visit` on a leaf node whose type has no `visit_<type>`
method throws `Error("Each terminal should have a corresponding visit
method")`; the visit-each-child fallback applies only to internal nodes. -/
theorem visit_terminal_requires_method {S T : Type}
    (methods : List (String × (S → PTree → VisitOut T))) (fuel : Nat) (state : S) :
    (∀ lt : LexTree, alookup methods ("visit_" ++ lt.type) = none →
      Visitor.visit methods (fuel + 1) state (.leaf lt) =
        .error "Each terminal should have a corresponding visit method") ∧
    (∀ (ty : String) (cs : List PTree), alookup methods ("visit_" ++ ty) = none →
      Visitor.visit methods (fuel + 1) state (.node ty cs) =
        Visitor.visitChildren methods fuel state cs) := by
  constructor
  · intro lt h
    rw [Visitor.visit]
    simp only [PTree.type, h]
  · intro ty cs h
    rw [Visitor.visit]
    simp only [PTree.type, h]

/-- Witness for C10 at a concrete input: the empty visitor on a `number`
leaf. -/
theorem visit_terminal_requires_method_witness :
    Visitor.visit ([] : List (String × (Nat → PTree → VisitOut Nat))) 1 0
      (.leaf ⟨"number", ["3"], 0, 0⟩) =
      .error "Each terminal should have a corresponding visit method" :=
  (visit_terminal_requires_method [] 0 0).1 ⟨"number", ["3"], 0, 0⟩ rfl

/-! Key-uniqueness of the action table (C4).  Every write into a row happens
only after `hasOwnProperty` returned false, so rows never acquire duplicate
keys. -/

theorem alookup_none_iff {α : Type} : ∀ (l : List (String × α)) (k : String),
    alookup l k = none ↔ k ∉ l.map Prod.fst
  | [], k => by simp [alookup]
  | (a, v) :: rest, k => by
    rw [alookup]
    by_cases h : a = k
    · subst h; simp
    · simp only [if_neg h, List.map_cons, List.mem_cons]
      rw [alookup_none_iff rest k]
      constructor
      · intro hn hm
        rcases hm with rfl | hm
        · exact h rfl
        · exact hn hm
      · intro hn
        exact fun hm => hn (Or.inr hm)

theorem nodupKeys_append {α : Type} {row : List (String × α)} {el : String} {a : α}
    (hn : (row.map Prod.fst).Nodup) (h : alookup row el = none) :
    ((row ++ [(el, a)]).map Prod.fst).Nodup := by
  rw [List.map_append, List.nodup_append]
  refine ⟨hn, by simp, ?_⟩
  intro x hx hmem
  simp only [List.map_cons, List.map_nil, List.mem_singleton] at hmem
  subst hmem
  exact (alookup_none_iff row x).mp h hx

theorem addReduces_nodup {key : String} {children : Rule} {j : Nat} :
    ∀ (els : List String) (row row' : Parser.Row),
      Parser.addReduces key children j els row = .ok row' →
      (row.map Prod.fst).Nodup → (row'.map Prod.fst).Nodup := by
  intro els
  induction els with
  | nil =>
    intro row row' h hn
    rw [Parser.addReduces] at h
    cases h
    exact hn
  | cons el els ih =>
    intro row row' h hn
    rw [Parser.addReduces] at h
    cases ha : alookup row el with
    | some a => rw [ha] at h; cases h
    | none =>
      rw [ha] at h
      exact ih _ row' h (nodupKeys_append hn ha)

theorem buildState_nodup {rules : RuleSet} {fuel : Nat}
    {followM : List (String × List String)} {start : String}
    {stateItems : List DottedRule} :
    ∀ (items : List DottedRule) (j : Nat) (states : List (List DottedRule))
      (row : Parser.Row) (sts' : List (List DottedRule)) (row' : Parser.Row),
      Parser.buildState rules fuel followM start stateItems items j states row =
        .ok (some (sts', row')) →
      (row.map Prod.fst).Nodup → (row'.map Prod.fst).Nodup := by
  intro items
  induction items with
  | nil =>
    intro j states row sts' row' h hn
    rw [Parser.buildState] at h
    cases h
    exact hn
  | cons rule rest ih =>
    intro j states row sts' row' h hn
    rw [Parser.buildState] at h
    by_cases hdot : rule.dot = rule.children.length
    · rw [if_pos hdot] at h
      by_cases hkey : rule.key = start
      · rw [if_pos hkey] at h
        cases ha : alookup row "$" with
        | some a => rw [ha] at h; cases h
        | none =>
          rw [ha] at h
          exact ih _ _ _ _ _ h (nodupKeys_append hn ha)
      · rw [if_neg hkey] at h
        cases hr : Parser.addReduces rule.key rule.children j
            ((alookup followM rule.key).getD []) row with
        | error e => rw [hr] at h; cases h
        | ok row'' =>
          rw [hr] at h
          exact ih _ _ _ _ _ h (addReduces_nodup _ _ _ hr hn)
    · rw [if_neg hdot] at h
      cases ha : alookup row (Parser.base ((rule.children.get? rule.dot).getD "")) with
      | some a =>
        rw [ha] at h
        by_cases hk : Parser.actionKind a = "shift"
        · simp only [if_pos hk] at h
          exact ih _ _ _ _ _ h hn
        · simp only [if_neg hk] at h
          cases h
      | none =>
        rw [ha] at h
        cases hg : Parser.goto rules fuel stateItems
            (Parser.base ((rule.children.get? rule.dot).getD "")) with
        | error e => rw [hg] at h; cases h
        | ok o =>
          rw [hg] at h
          cases o with
          | none => cases h
          | some p =>
            obtain ⟨gotoState, cf⟩ := p
            cases hf : states.findIdx? (fun s => s == gotoState) with
            | some g =>
              simp only [hf] at h
              exact ih _ _ _ _ _ h (nodupKeys_append hn ha)
            | none =>
              simp only [hf] at h
              exact ih _ _ _ _ _ h (nodupKeys_append hn ha)

theorem buildLoop_nodup {rules : RuleSet} {fuel : Nat}
    {followM : List (String × List String)} {start : String} :
    ∀ (f : Nat) (states : List (List DottedRule)) (i : Nat) (table : List Parser.Row)
      (sts' : List (List DottedRule)) (tbl' : List Parser.Row),
      Parser.buildLoop rules fuel followM start f states i table = .ok (some (sts', tbl')) →
      (∀ row ∈ table, (row.map Prod.fst).Nodup) →
      ∀ row ∈ tbl', (row.map Prod.fst).Nodup := by
  intro f
  induction f with
  | zero => intro states i table sts' tbl' h _; rw [Parser.buildLoop] at h; cases h
  | succ f ih =>
    intro states i table sts' tbl' h htable
    rw [Parser.buildLoop] at h
    cases hs : states.get? i with
    | none =>
      rw [hs] at h
      cases h
      exact htable
    | some st =>
      simp only [hs] at h
      cases hb : Parser.buildState rules fuel followM start st st 0 states [] with
      | error e => simp only [hb] at h; cases h
      | ok o =>
        simp only [hb] at h
        cases o with
        | none => cases h
        | some p =>
          refine ih _ _ _ _ _ h ?_
          intro row hrow
          rcases List.mem_append.mp hrow with hrow | hrow
          · exact htable row hrow
          · rw [List.mem_singleton] at hrow
            subst hrow
            exact buildState_nodup _ _ _ _ _ _ hb List.nodup_nil

/-- C4: `Parser.buildTable` never returns a table with a double entry — every
row of a successfully built table has pairwise-distinct lookahead keys (each
write happens only after `hasOwnProperty` returned false) — and every thrown
error is a conflict error carrying the offending rule's key and children and
the two action kinds. -/
theorem buildTable_no_double_entry (rules : RuleSet) (start : String) (fuel : Nat) :
    (∀ (tbl : List Parser.Row), Parser.buildTable rules start fuel = .ok (some tbl) →
      ∀ row ∈ tbl, (row.map Prod.fst).Nodup) ∧
    (∀ e, Parser.buildTable rules start fuel = .error e →
      ∃ key children kind1 kind2, e = .conflict key children kind1 kind2) := by
  constructor
  · intro tbl h row hrow
    rw [Parser.buildTable] at h
    cases haux : Parser.buildTableAux rules start fuel with
    | error e => rw [haux] at h; cases h
    | ok o =>
      rw [haux] at h
      cases o with
      | none => cases h
      | some p =>
        cases h
        rw [Parser.buildTableAux] at haux
        cases hc : Parser.closure rules fuel ⟨start, [start], 0⟩ with
        | none => rw [hc] at haux; cases haux
        | some st0 =>
          rw [hc] at haux
          cases hf : Parser.follow rules start fuel with
          | none => rw [hf] at haux; cases haux
          | some followM =>
            rw [hf] at haux
            exact buildLoop_nodup _ _ _ _ _ _ haux (by simp) row hrow
  · intro e _
    cases e with
    | conflict key children kind1 kind2 => exact ⟨key, children, kind1, kind2, rfl⟩

/-- Witness for C4 at a concrete input: the first row of the `list` grammar's
table has distinct keys. -/
theorem buildTable_no_double_entry_witness :
    ((listTable.headD []).map Prod.fst).Nodup :=
  (buildTable_no_double_entry listRules "list" 50).1 listTable (by rfl)
    (listTable.headD []) (by decide)

/-! Stack-length invariant of the parse runtime (C8). -/

theorem dispatch_preserves_lengths {table : List Parser.Row} {cfg : Parser.Config}
    {token : LexTree} {cfg' : Parser.Config}
    (h : Parser.dispatch table cfg token = .next cfg') (hinv : stacksAligned cfg) :
    stacksAligned cfg' := by
  rw [Parser.dispatch] at h
  by_cases hws : token.type == "whitespace"
  · simp only [if_pos hws] at h
    cases h
    exact hinv
  · simp only [if_neg hws] at h
    cases hhd : cfg.stateStack.head? with
    | none => simp only [hhd] at h; cases h
    | some s =>
      simp only [hhd] at h
      cases hrow : table.get? s with
      | none => simp only [hrow] at h; cases h
      | some row =>
        simp only [hrow] at h
        cases hact : alookup row token.type with
        | none => simp only [hact] at h; cases h
        | some a =>
          simp only [hact] at h
          cases a with
          | shift g cf =>
            cases h
            obtain ⟨h1, h2⟩ := hinv
            exact ⟨by simp [h1], by simp [h2]⟩
          | reduce key ruleIdx =>
            cases hn : Parser.sparseGet (cfg.readStack.headD []) ruleIdx with
            | none => simp only [hn] at h; cases h
            | some n =>
              simp only [hn] at h
              cases hhd' : (cfg.stateStack.drop n).head? with
              | none => simp only [hhd'] at h; cases h
              | some s' =>
                simp only [hhd'] at h
                cases hrow' : table.get? s' with
                | none => simp only [hrow'] at h; cases h
                | some row' =>
                  simp only [hrow'] at h
                  cases hact' : alookup row' key with
                  | none => simp only [hact'] at h; cases h
                  | some a' =>
                    simp only [hact'] at h
                    cases a' with
                    | shift g cf =>
                      cases h
                      obtain ⟨h1, h2⟩ := hinv
                      have hne : (cfg.stateStack.drop n).length ≠ 0 := by
                        intro hz
                        rw [List.head?_eq_none_iff.mpr (List.length_eq_zero.mp hz)] at hhd'
                        cases hhd'
                      constructor
                      · simp only [Parser.Config.symbolStack, Parser.Config.stateStack,
                          List.length_cons, List.length_drop] at *
                        omega
                      · simp only [Parser.Config.readStack, Parser.Config.stateStack,
                          List.length_cons, List.length_drop] at *
                        omega
                    | reduce k r => cases h
                    | accept k => cases h
          | accept key => cases h

theorem parseStep_preserves_lengths {lexer : List Terminal} {table : List Parser.Row}
    {tokens : List LexTree} {cfg cfg' : Parser.Config}
    (h : Parser.parseStep lexer table tokens cfg = .next cfg') (hinv : stacksAligned cfg) :
    stacksAligned cfg' := by
  rw [Parser.parseStep] at h
  cases hlt : cfg.lexToken with
  | some ltok =>
    simp only [hlt] at h
    exact dispatch_preserves_lengths h hinv
  | none =>
    simp only [hlt] at h
    cases htok : tokens.get? cfg.i with
    | none => simp only [htok] at h; cases h
    | some tok =>
      simp only [htok] at h
      by_cases hu : tok.type == "unknown"
      · simp only [if_pos hu] at h
        cases hnx : Lexer.next lexer tok cfg.index
            ((cfg.stateStack.head?.bind (fun s => table.get? s)).map
              (fun row => row.map (fun kv => kv.1))) with
        | error e => simp only [hnx] at h; cases h
        | ok ltok =>
          simp only [hnx] at h
          by_cases hd : ltok.type == "$"
          · simp only [if_pos hd] at h
            cases h
            exact hinv
          · simp only [if_neg hd] at h
            exact dispatch_preserves_lengths h hinv
      · simp only [if_neg hu] at h
        exact dispatch_preserves_lengths h hinv

/-- C8: throughout `Parser.parse` — at initialization and at the start of
every main-loop iteration — `symbolStack` is exactly one entry shorter than
`stateStack` (and `readStack` is aligned with `stateStack`): a shift pushes
one symbol and one state, and a reduce removes the same count from all three
stacks before pushing the parent and its goto state. -/
theorem parse_stack_length_invariant (lexer : List Terminal) (table : List Parser.Row)
    (tokens : List LexTree) (cfg : Parser.Config)
    (h : Parser.Reachable lexer table tokens cfg) :
    (cfg.symbolStack.length + 1 = cfg.stateStack.length ∧
      cfg.readStack.length = cfg.stateStack.length) ∧
    ∀ cfg', Parser.parseStep lexer table tokens cfg = .next cfg' →
      cfg'.symbolStack.length + 1 = cfg'.stateStack.length ∧
        cfg'.readStack.length = cfg'.stateStack.length := by
  have hbase : stacksAligned Parser.initConfig := by
    constructor <;> rfl
  have hinv : stacksAligned cfg := by
    induction h with
    | refl => exact hbase
    | tail _ hstep ih => exact parseStep_preserves_lengths hstep ih
  exact ⟨hinv, fun cfg' hstep => parseStep_preserves_lengths hstep hinv⟩

/-- Witness for C8 at a concrete input: the configuration reached after the
first shift of the `list` grammar on `"[]"`. -/
theorem parse_stack_length_invariant_witness :
    (([PTree.leaf ⟨"[", ["["], 0, 0⟩].length + 1 = [2, 0].length ∧
      [[some 1, some 1], ([] : List (Option Nat))].length = [2, 0].length) ∧
    ∀ cfg', Parser.parseStep listLexer listTable (Lexer.split "[]" none)
        ⟨[.leaf ⟨"[", ["["], 0, 0⟩], [[some 1, some 1], []], [2, 0], 0, none, 1⟩ = .next cfg' →
      cfg'.symbolStack.length + 1 = cfg'.stateStack.length ∧
        cfg'.readStack.length = cfg'.stateStack.length) :=
  parse_stack_length_invariant listLexer listTable (Lexer.split "[]" none)
    ⟨[.leaf ⟨"[", ["["], 0, 0⟩], [[some 1, some 1], []], [2, 0], 0, none, 1⟩
    (Relation.ReflTransGen.tail Relation.ReflTransGen.refl (by rfl))

/-! Item-set lemmas for the reduction-width claim (C1). -/

theorem findIdx?_beq_get {α : Type} [BEq α] [LawfulBEq α] {x : α} :
    ∀ (l : List α) (base i : Nat), List.findIdx? (fun s => s == x) l base = some i →
      base ≤ i ∧ l.get? (i - base) = some x := by
  intro l
  induction l with
  | nil => intro base i h; simp [List.findIdx?] at h
  | cons a rest ih =>
    intro base i h
    rw [List.findIdx?_cons] at h
    by_cases hp : a == x
    · rw [if_pos hp] at h
      cases h
      refine ⟨le_refl _, ?_⟩
      simp only [Nat.sub_self, List.get?]
      rw [eq_of_beq hp]
    · rw [if_neg hp] at h
      obtain ⟨hle, hget⟩ := ih (base + 1) i h
      refine ⟨by omega, ?_⟩
      have hd : i - base = (i - (base + 1)) + 1 := by omega
      rw [hd]
      simpa using hget

theorem skipOmitGo_mem {root : DottedRule} :
    ∀ (n i : Nat) (r : DottedRule), r ∈ Parser.skipOmitGo root i n →
      r.key = root.key ∧ r.children = root.children ∧ i + 1 ≤ r.dot := by
  intro n
  induction n with
  | zero => intro i r h; simp [Parser.skipOmitGo] at h
  | succ n ih =>
    intro i r h
    rw [Parser.skipOmitGo] at h
    cases hg : root.children.get? i with
    | none => simp only [hg] at h; simp at h
    | some el =>
      simp only [hg] at h
      by_cases ho : Parser.canOmit el
      · simp only [if_pos ho] at h
        rcases List.mem_cons.mp h with rfl | h
        · exact ⟨rfl, rfl, le_refl _⟩
        · obtain ⟨h1, h2, h3⟩ := ih (i + 1) r h
          exact ⟨h1, h2, by omega⟩
      · simp only [if_neg ho] at h
        simp at h

/-- Membership in `skipOmit` preserves key and children and can only move the
dot right. -/
theorem skipOmit_mem {root r : DottedRule} (h : r ∈ Parser.skipOmit root) :
    r.key = root.key ∧ r.children = root.children ∧ root.dot ≤ r.dot := by
  rw [Parser.skipOmit] at h
  rcases List.mem_cons.mp h with rfl | h
  · exact ⟨rfl, rfl, le_refl _⟩
  · obtain ⟨h1, h2, h3⟩ := skipOmitGo_mem _ _ _ h
    exact ⟨h1, h2, by omega⟩

/-- A quantifier-free rule has no omissible elements, so its `skipOmit` chain
is trivial. -/
theorem skipOmit_plain {root : DottedRule} (h : plainRule root.children = true) :
    Parser.skipOmit root = [root] := by
  rw [Parser.skipOmit]
  cases hn : root.children.length - root.dot with
  | zero => rfl
  | succ n =>
    rw [Parser.skipOmitGo]
    cases hg : root.children.get? root.dot with
    | none => simp only [hg]
    | some el =>
      have hmem : el ∈ root.children := List.get?_mem hg
      have hno : ¬ Parser.canOmit el = true := by
        have := (List.all_eq_true.mp h) el hmem
        simp only [Bool.and_eq_true, Bool.not_eq_true'] at this
        simp [this.1]
      simp only [hg, if_neg hno]

/-- A quantifier-free member of a `skipOmit` chain is the chain's root. -/
theorem skipOmit_plain_mem {root r : DottedRule} (hmem : r ∈ Parser.skipOmit root)
    (h : plainRule r.children = true) : r = root := by
  obtain ⟨_, hch, _⟩ := skipOmit_mem hmem
  rw [skipOmit_plain (by rw [← hch]; exact h)] at hmem
  exact List.mem_singleton.mp hmem

theorem mem_dedupAppend {α : Type} [BEq α] [LawfulBEq α] :
    ∀ (l acc : List α) (r : α),
      r ∈ l.foldl (fun acc x => if acc.contains x then acc else acc ++ [x]) acc →
      r ∈ acc ∨ r ∈ l := by
  intro l
  induction l with
  | nil => intro acc r h; exact Or.inl h
  | cons x xs ih =>
    intro acc r h
    rw [List.foldl_cons] at h
    by_cases hc : acc.contains x
    · rw [if_pos hc] at h
      rcases ih _ _ h with h | h
      · exact Or.inl h
      · exact Or.inr (List.mem_cons_of_mem _ h)
    · rw [if_neg hc] at h
      rcases ih _ _ h with h | h
      · rcases List.mem_append.mp h with h | h
        · exact Or.inl h
        · exact Or.inr (List.mem_cons.mpr (Or.inl (List.mem_singleton.mp h)))
      · exact Or.inr (List.mem_cons_of_mem _ h)

theorem mem_closureFold {nt : String} :
    ∀ (chs : List Rule) (acc : List DottedRule) (r : DottedRule),
      r ∈ chs.foldl (fun acc children =>
        (Parser.skipOmit ⟨nt, children, 0⟩).foldl
          (fun acc nextRule => if acc.contains nextRule then acc else acc ++ [nextRule])
          acc) acc →
      r ∈ acc ∨ ∃ ch ∈ chs, r ∈ Parser.skipOmit ⟨nt, ch, 0⟩ := by
  intro chs
  induction chs with
  | nil => intro acc r h; exact Or.inl h
  | cons ch chs ih =>
    intro acc r h
    rw [List.foldl_cons] at h
    rcases ih _ _ h with h | h
    · rcases mem_dedupAppend _ _ _ h with h | h
      · exact Or.inl h
      · exact Or.inr ⟨ch, List.mem_cons_self _ _, h⟩
    · rcases h with ⟨ch', hch', hr⟩
      exact Or.inr ⟨ch', List.mem_cons_of_mem _ hch', hr⟩

theorem mem_closureStep {rules : RuleSet} {acc : List DottedRule} {rule r : DottedRule}
    (h : r ∈ Parser.closureStep rules acc rule) : r ∈ acc ∨ closureIntro rules r := by
  rw [Parser.closureStep] at h
  cases hg : rule.children.get? rule.dot with
  | none => simp only [hg] at h; exact Or.inl h
  | some elAtDot =>
    simp only [hg] at h
    cases ha : alookup rules (Parser.base elAtDot) with
    | none => simp only [ha] at h; exact Or.inl h
    | some ruleList =>
      simp only [ha] at h
      rcases mem_closureFold _ _ _ h with h | h
      · exact Or.inl h
      · rcases h with ⟨ch, hch, hr⟩
        exact Or.inr ⟨Parser.base elAtDot, ruleList, ch, ha, hch, hr⟩

theorem closureLoop_members {rules : RuleSet} :
    ∀ (fuel : Nat) (acc : List DottedRule) (p : Nat) (out : List DottedRule),
      Parser.closureLoop rules fuel acc p = some out →
      ∀ r ∈ out, r ∈ acc ∨ closureIntro rules r := by
  intro fuel
  induction fuel with
  | zero => intro acc p out h; rw [Parser.closureLoop] at h; cases h
  | succ fuel ih =>
    intro acc p out h r hr
    rw [Parser.closureLoop] at h
    cases hg : acc.get? p with
    | none =>
      rw [hg] at h
      cases h
      exact Or.inl hr
    | some rule =>
      simp only [hg] at h
      rcases ih _ _ _ h r hr with h' | h'
      · exact mem_closureStep h'
      · exact Or.inr h'

/-- Every item of a closure is in the root's `skipOmit` chain or was
introduced by closure expansion of a grammar production at dot 0. -/
theorem closure_members {rules : RuleSet} {fuel : Nat} {root : DottedRule}
    {out : List DottedRule} (h : Parser.closure rules fuel root = some out) :
    ∀ r ∈ out, r ∈ Parser.skipOmit root ∨ closureIntro rules r := by
  intro r hr
  exact closureLoop_members fuel _ 0 out h r hr

/-- A quantifier-free closure item with the dot past 0 comes from the root's
`skipOmit` chain (closure-introduced items of a plain rule sit at dot 0). -/
theorem closure_plain_dot_pos {rules : RuleSet} {fuel : Nat} {root : DottedRule}
    {out : List DottedRule} (h : Parser.closure rules fuel root = some out)
    {r : DottedRule} (hr : r ∈ out) (hp : plainRule r.children = true)
    (hd : 1 ≤ r.dot) : r ∈ Parser.skipOmit root := by
  rcases closure_members h r hr with h' | h'
  · exact h'
  · exfalso
    rcases h' with ⟨nt, rl, ch, _, _, hmem⟩
    have := skipOmit_plain_mem hmem (by
      obtain ⟨_, hch, _⟩ := skipOmit_mem hmem
      exact hp)
    subst this
    simp at hd

theorem cfPad_length {cf : List Parser.CFEntry} {n : Nat} (h : cf.length ≤ n) :
    (Parser.cfPad cf n).length = n := by
  simp only [Parser.cfPad, List.length_append, List.length_replicate]
  omega

theorem cfPad_concat_get?_lt {cf : List Parser.CFEntry} {n p : Nat} {e : Parser.CFEntry}
    (h : p < cf.length) : (Parser.cfPad cf n ++ [e]).get? p = cf.get? p := by
  rw [Parser.cfPad, List.append_assoc]
  exact List.get?_append h

theorem cfPad_concat_get?_mid {cf : List Parser.CFEntry} {n p : Nat} {e : Parser.CFEntry}
    (hcf : cf.length ≤ p) (hp : p < n) :
    (Parser.cfPad cf n ++ [e]).get? p = some .hole := by
  rw [Parser.cfPad, List.append_assoc, List.get?_append_right hcf]
  rw [List.get?_append (by simp; omega)]
  simp [List.get?_eq_getElem?, List.getElem?_replicate]
  omega

theorem cfPad_concat_get?_end {cf : List Parser.CFEntry} {n : Nat} {e : Parser.CFEntry}
    (hcf : cf.length ≤ n) : (Parser.cfPad cf n ++ [e]).get? n = some e := by
  have hlen : (Parser.cfPad cf n).length = n := cfPad_length hcf
  calc (Parser.cfPad cf n ++ [e]).get? n
      = (Parser.cfPad cf n ++ [e]).get? (Parser.cfPad cf n).length := by rw [hlen]
    _ = some e := List.get?_concat_length _ _

/-- One `gotoAdd` step preserves the goto invariant, given that the processed
closure item comes from the advanced item's closure and the source item
recognizes `el` at its dot. -/
theorem gotoAdd_inv {rules : RuleSet} {ruleSet : List DottedRule} {el : String}
    {i j : Nat} {srcRule : DottedRule}
    {st st' : List DottedRule × List Parser.CFEntry} {nextRule : DottedRule}
    (hsrc : ruleSet.get? i = some srcRule)
    (hel : (srcRule.children.get? srcRule.dot).map Parser.base = some el)
    (hj : j = 1 ∨ (j = 0 ∧ Parser.canRepeat ((srcRule.children.get? srcRule.dot).getD "") = true))
    (hcls : nextRule ∈ Parser.skipOmit ⟨srcRule.key, srcRule.children, srcRule.dot + j⟩ ∨
      closureIntro rules nextRule)
    (hinv : gotoInv ruleSet el st)
    (h : Parser.gotoAdd i srcRule
      (Parser.skipOmit ⟨srcRule.key, srcRule.children, srcRule.dot + j⟩) st nextRule =
      .ok st') :
    gotoInv ruleSet el st' := by
  obtain ⟨inv1, inv2, inv3, inv4⟩ := hinv
  rw [Parser.gotoAdd] at h
  cases hf : st.1.findIdx? (fun r => r == nextRule) with
  | some ruleIndex =>
    simp only [hf] at h
    by_cases hcond : ((Parser.skipOmit ⟨srcRule.key, srcRule.children, srcRule.dot + j⟩).contains nextRule &&
        !(Parser.cfGet st.2 ruleIndex == some i)) ||
        (!(Parser.skipOmit ⟨srcRule.key, srcRule.children, srcRule.dot + j⟩).contains nextRule &&
          (Parser.cfGet st.2 ruleIndex).isSome)
    · simp only [if_pos hcond] at h; cases h
    · simp only [if_neg hcond] at h
      cases h
      exact ⟨inv1, inv2, inv3, inv4⟩
  | none =>
    simp only [hf] at h
    by_cases htr : (Parser.skipOmit ⟨srcRule.key, srcRule.children, srcRule.dot + j⟩).contains nextRule
    · simp only [if_pos htr] at h
      cases h
      have hmem : nextRule ∈ Parser.skipOmit ⟨srcRule.key, srcRule.children, srcRule.dot + j⟩ :=
        List.elem_iff.mp htr
      have factA : plainRule nextRule.children = true →
          nextRule.key = srcRule.key ∧ nextRule.children = srcRule.children ∧
            nextRule.dot = srcRule.dot + 1 := by
        intro hp
        have heq := skipOmit_plain_mem hmem hp
        rcases hj with rfl | ⟨rfl, hrep⟩
        · rw [heq]; exact ⟨rfl, rfl, rfl⟩
        · exfalso
          cases hg : srcRule.children.get? srcRule.dot with
          | none => rw [hg] at hel; cases hel
          | some el0 =>
            have hmem0 : el0 ∈ srcRule.children := List.get?_mem hg
            have hp' : plainRule srcRule.children = true := by
              rw [heq] at hp; exact hp
            have hplain0 := (List.all_eq_true.mp hp') el0 hmem0
            simp only [Bool.and_eq_true, Bool.not_eq_true'] at hplain0
            rw [hg] at hrep
            simp only [Option.getD_some] at hrep
            rw [hplain0.2] at hrep
            cases hrep
      refine ⟨?_, ?_, ?_, ?_⟩
      · -- tracked push: component (1)
        intro p r hget hp hd
        by_cases hlt : p < st.1.length
        · rw [List.get?_append hlt] at hget
          obtain ⟨i0, src0, hcf0, hsrc0, hk0, hc0, hd0, hel0⟩ := inv1 p r hget hp hd
          refine ⟨i0, src0, ?_, hsrc0, hk0, hc0, hd0, hel0⟩
          have hgetcf : st.2.get? p = some (.idx i0) := by
            rw [Parser.cfGet] at hcf0
            cases hcf : st.2.get? p with
            | none => rw [hcf] at hcf0; cases hcf0
            | some e =>
              rw [hcf] at hcf0
              cases e with
              | idx m => cases hcf0; rfl
              | nullv => cases hcf0
              | hole => cases hcf0
          have hplt : p < st.2.length := by
            by_contra hge
            rw [List.get?_eq_none.mpr (by omega)] at hgetcf
            cases hgetcf
          rw [Parser.cfGet, cfPad_concat_get?_lt hplt, hgetcf]
        · have hple : st.1.length ≤ p := by omega
          have hgetp : p = st.1.length := by
            by_contra hne
            rw [List.get?_eq_none.mpr (by simp; omega)] at hget
            cases hget
          subst hgetp
          rw [List.get?_concat_length] at hget
          cases hget
          obtain ⟨hk, hc, hdot⟩ := factA hp
          refine ⟨i, srcRule, ?_, hsrc, hk.symm, hc.symm, by omega, hel⟩
          rw [Parser.cfGet, cfPad_concat_get?_end inv4]
      · -- tracked push: component (2)
        intro p r hget hp hd0
        by_cases hlt : p < st.1.length
        · rw [List.get?_append hlt] at hget
          rcases inv2 p r hget hp hd0 with hc | hc
          · have hge : st.2.length ≤ p := List.get?_eq_none.mp hc
            right
            exact cfPad_concat_get?_mid hge hlt
          · have hplt : p < st.2.length := by
              by_contra hge
              rw [List.get?_eq_none.mpr (by omega)] at hc
              cases hc
            right
            rw [cfPad_concat_get?_lt hplt]
            exact hc
        · have hgetp : p = st.1.length := by
            by_contra hne
            rw [List.get?_eq_none.mpr (by simp; omega)] at hget
            cases hget
          subst hgetp
          rw [List.get?_concat_length] at hget
          cases hget
          obtain ⟨_, _, hdot⟩ := factA hp
          omega
      · -- tracked push: component (3)
        intro p
        by_cases hplt : p < st.2.length
        · rw [cfPad_concat_get?_lt hplt]
          exact inv3 p
        · by_cases hmid : p < st.1.length
          · rw [cfPad_concat_get?_mid (by omega) hmid]
            simp
          · by_cases hend : p = st.1.length
            · subst hend
              rw [cfPad_concat_get?_end inv4]
              simp
            · rw [List.get?_eq_none.mpr (by
                rw [List.length_append, cfPad_length inv4]
                simp
                omega)]
              simp
      · -- tracked push: component (4)
        rw [List.length_append, List.length_append, cfPad_length inv4]
        simp
    · simp only [if_neg htr] at h
      cases h
      have factB : plainRule nextRule.children = true → nextRule.dot = 0 := by
        intro hp
        rcases hcls with hmem | hintro
        · exact absurd (List.elem_iff.mpr hmem) htr
        · obtain ⟨nt, rl, ch, _, _, hmem'⟩ := hintro
          have heq := skipOmit_plain_mem hmem' hp
          rw [heq]
      refine ⟨?_, ?_, inv3, ?_⟩
      rotate_right
      · simp only [List.length_append, List.length_singleton]
        omega
      · intro p r hget hp hd
        by_cases hlt : p < st.1.length
        · rw [List.get?_append hlt] at hget
          exact inv1 p r hget hp hd
        · have hgetp : p = st.1.length := by
            by_contra hne
            rw [List.get?_eq_none.mpr (by simp; omega)] at hget
            cases hget
          subst hgetp
          rw [List.get?_concat_length] at hget
          cases hget
          have := factB hp
          omega
      · intro p r hget hp hd0
        by_cases hlt : p < st.1.length
        · rw [List.get?_append hlt] at hget
          exact inv2 p r hget hp hd0
        · left
          show st.2.get? p = none
          exact List.get?_eq_none.mpr (by omega)

theorem gotoAddList_inv {rules : RuleSet} {ruleSet : List DottedRule} {el : String}
    {i j : Nat} {srcRule : DottedRule}
    (hsrc : ruleSet.get? i = some srcRule)
    (hel : (srcRule.children.get? srcRule.dot).map Parser.base = some el)
    (hj : j = 1 ∨ (j = 0 ∧ Parser.canRepeat ((srcRule.children.get? srcRule.dot).getD "") = true)) :
    ∀ (rs : List DottedRule) (st st' : List DottedRule × List Parser.CFEntry),
      (∀ r ∈ rs, r ∈ Parser.skipOmit ⟨srcRule.key, srcRule.children, srcRule.dot + j⟩ ∨
        closureIntro rules r) →
      gotoInv ruleSet el st →
      Parser.gotoAddList i srcRule
        (Parser.skipOmit ⟨srcRule.key, srcRule.children, srcRule.dot + j⟩) rs st = .ok st' →
      gotoInv ruleSet el st' := by
  intro rs
  induction rs with
  | nil =>
    intro st st' _ hinv h
    rw [Parser.gotoAddList] at h
    cases h
    exact hinv
  | cons r rest ih =>
    intro st st' hmem hinv h
    rw [Parser.gotoAddList] at h
    cases ha : Parser.gotoAdd i srcRule
        (Parser.skipOmit ⟨srcRule.key, srcRule.children, srcRule.dot + j⟩) st r with
    | error e => simp only [ha] at h; cases h
    | ok st1 =>
      simp only [ha] at h
      exact ih st1 st' (fun r' hr' => hmem r' (List.mem_cons_of_mem _ hr'))
        (gotoAdd_inv hsrc hel hj (hmem r (List.mem_cons_self _ _)) hinv ha) h

theorem gotoJ_inv {rules : RuleSet} {fuel : Nat} {ruleSet : List DottedRule} {el : String}
    {i j : Nat} {srcRule : DottedRule}
    {st : List DottedRule × List Parser.CFEntry}
    {st' : List DottedRule × List Parser.CFEntry}
    (hsrc : ruleSet.get? i = some srcRule)
    (hel : (srcRule.children.get? srcRule.dot).map Parser.base = some el)
    (hj : j = 1 ∨ (j = 0 ∧ Parser.canRepeat ((srcRule.children.get? srcRule.dot).getD "") = true))
    (hinv : gotoInv ruleSet el st)
    (h : Parser.gotoJ rules fuel i srcRule j st = .ok (some st')) :
    gotoInv ruleSet el st' := by
  rw [Parser.gotoJ] at h
  cases hc : Parser.closure rules fuel ⟨srcRule.key, srcRule.children, srcRule.dot + j⟩ with
  | none => simp only [hc] at h; cases h
  | some cls =>
    simp only [hc] at h
    cases ha : Parser.gotoAddList i srcRule
        (Parser.skipOmit ⟨srcRule.key, srcRule.children, srcRule.dot + j⟩) cls st with
    | error e => simp only [ha] at h; cases h
    | ok st1 =>
      simp only [ha] at h
      cases h
      exact gotoAddList_inv hsrc hel hj cls st _ (closure_members hc) hinv ha

theorem gotoLoop_inv {rules : RuleSet} {fuel : Nat} {ruleSet : List DottedRule} {el : String} :
    ∀ (rs : List DottedRule) (i : Nat) (st st' : List DottedRule × List Parser.CFEntry),
      ruleSet.drop i = rs →
      gotoInv ruleSet el st →
      Parser.gotoLoop rules fuel el rs i st = .ok (some st') →
      gotoInv ruleSet el st' := by
  intro rs
  induction rs with
  | nil =>
    intro i st st' _ hinv h
    rw [Parser.gotoLoop] at h
    cases h
    exact hinv
  | cons rule rest ih =>
    intro i st st' hdrop hinv h
    have hget : ruleSet.get? i = some rule := by
      have := List.get?_drop ruleSet i 0
      rw [hdrop] at this
      simpa using this.symm
    have hdrop' : ruleSet.drop (i + 1) = rest := by
      have : ruleSet.drop (i + 1) = (ruleSet.drop i).drop 1 := by
        rw [List.drop_drop]
      rw [this, hdrop]
      rfl
    rw [Parser.gotoLoop] at h
    by_cases hm : (rule.children.get? rule.dot).map Parser.base = some el
    · simp only [if_pos hm] at h
      cases h1 : Parser.gotoJ rules fuel i rule 1 st with
      | error e => simp only [h1] at h; cases h
      | ok o1 =>
        simp only [h1] at h
        cases o1 with
        | none => cases h
        | some st1 =>
          have hinv1 := gotoJ_inv hget hm (Or.inl rfl) hinv h1
          by_cases hrep : Parser.canRepeat ((rule.children.get? rule.dot).getD "")
          · simp only [if_pos hrep] at h
            cases h0 : Parser.gotoJ rules fuel i rule 0 st1 with
            | error e => simp only [h0] at h; cases h
            | ok o0 =>
              simp only [h0] at h
              cases o0 with
              | none => cases h
              | some st2 =>
                have hinv2 := gotoJ_inv hget hm (Or.inr ⟨rfl, hrep⟩) hinv1 h0
                exact ih (i + 1) st2 st' hdrop' hinv2 h
          · simp only [if_neg hrep] at h
            exact ih (i + 1) st1 st' hdrop' hinv1 h
    · simp only [if_neg hm] at h
      exact ih (i + 1) st st' hdrop' hinv h

/-- The output of `Parser.goto` satisfies the goto invariant. -/
theorem goto_inv {rules : RuleSet} {fuel : Nat} {ruleSet : List DottedRule} {el : String}
    {out : List DottedRule} {cf : List Parser.CFEntry}
    (h : Parser.goto rules fuel ruleSet el = .ok (some (out, cf))) :
    gotoInv ruleSet el (out, cf) := by
  refine gotoLoop_inv ruleSet 0 ([], []) (out, cf) (by simp) ?_ h
  refine ⟨?_, ?_, ?_, ?_⟩
  · intro p r hget
    simp at hget
  · intro p r hget
    simp at hget
  · intro p
    simp
  · simp

theorem gotoAdd_members {i : Nat} {srcRule : DottedRule} {tracked : List DottedRule}
    {st st' : List DottedRule × List Parser.CFEntry} {r0 : DottedRule}
    (h : Parser.gotoAdd i srcRule tracked st r0 = .ok st') :
    ∀ r ∈ st'.1, r ∈ st.1 ∨ r = r0 := by
  rw [Parser.gotoAdd] at h
  cases hf : st.1.findIdx? (fun r => r == r0) with
  | some ruleIndex =>
    simp only [hf] at h
    by_cases hcond : (tracked.contains r0 && !(Parser.cfGet st.2 ruleIndex == some i)) ||
        (!tracked.contains r0 && (Parser.cfGet st.2 ruleIndex).isSome)
    · simp only [if_pos hcond] at h; cases h
    · simp only [if_neg hcond] at h
      cases h
      exact fun r hr => Or.inl hr
  | none =>
    simp only [hf] at h
    by_cases htr : tracked.contains r0
    · simp only [if_pos htr] at h
      cases h
      intro r hr
      rcases List.mem_append.mp hr with hr | hr
      · exact Or.inl hr
      · exact Or.inr (List.mem_singleton.mp hr)
    · simp only [if_neg htr] at h
      cases h
      intro r hr
      rcases List.mem_append.mp hr with hr | hr
      · exact Or.inl hr
      · exact Or.inr (List.mem_singleton.mp hr)

theorem gotoAddList_members {i : Nat} {srcRule : DottedRule} {tracked : List DottedRule} :
    ∀ (rs : List DottedRule) (st st' : List DottedRule × List Parser.CFEntry),
      Parser.gotoAddList i srcRule tracked rs st = .ok st' →
      ∀ r ∈ st'.1, r ∈ st.1 ∨ r ∈ rs := by
  intro rs
  induction rs with
  | nil =>
    intro st st' h r hr
    rw [Parser.gotoAddList] at h
    cases h
    exact Or.inl hr
  | cons r0 rest ih =>
    intro st st' h r hr
    rw [Parser.gotoAddList] at h
    cases ha : Parser.gotoAdd i srcRule tracked st r0 with
    | error e => simp only [ha] at h; cases h
    | ok st1 =>
      simp only [ha] at h
      rcases ih st1 st' h r hr with hr' | hr'
      · rcases gotoAdd_members ha r hr' with hr'' | hr''
        · exact Or.inl hr''
        · exact Or.inr (hr'' ▸ List.mem_cons_self _ _)
      · exact Or.inr (List.mem_cons_of_mem _ hr')

theorem gotoJ_members {rules : RuleSet} {fuel : Nat} {i j : Nat} {srcRule : DottedRule}
    {st st' : List DottedRule × List Parser.CFEntry}
    (h : Parser.gotoJ rules fuel i srcRule j st = .ok (some st')) :
    ∀ r ∈ st'.1, r ∈ st.1 ∨
      (r.key = srcRule.key ∧ r.children = srcRule.children) ∨ closureIntro rules r := by
  rw [Parser.gotoJ] at h
  cases hc : Parser.closure rules fuel ⟨srcRule.key, srcRule.children, srcRule.dot + j⟩ with
  | none => simp only [hc] at h; cases h
  | some cls =>
    simp only [hc] at h
    cases ha : Parser.gotoAddList i srcRule
        (Parser.skipOmit ⟨srcRule.key, srcRule.children, srcRule.dot + j⟩) cls st with
    | error e => simp only [ha] at h; cases h
    | ok st1 =>
      simp only [ha] at h
      cases h
      intro r hr
      rcases gotoAddList_members cls st _ ha r hr with hr' | hr'
      · exact Or.inl hr'
      · rcases closure_members hc r hr' with hr'' | hr''
        · obtain ⟨hk, hc', _⟩ := skipOmit_mem hr''
          exact Or.inr (Or.inl ⟨hk, hc'⟩)
        · exact Or.inr (Or.inr hr'')

theorem gotoLoop_members {rules : RuleSet} {fuel : Nat} {el : String} :
    ∀ (rs : List DottedRule) (i : Nat) (st st' : List DottedRule × List Parser.CFEntry),
      Parser.gotoLoop rules fuel el rs i st = .ok (some st') →
      ∀ r ∈ st'.1, r ∈ st.1 ∨
        (∃ src ∈ rs, r.key = src.key ∧ r.children = src.children) ∨
          closureIntro rules r := by
  intro rs
  induction rs with
  | nil =>
    intro i st st' h r hr
    rw [Parser.gotoLoop] at h
    cases h
    exact Or.inl hr
  | cons rule rest ih =>
    intro i st st' h r hr
    rw [Parser.gotoLoop] at h
    by_cases hm : (rule.children.get? rule.dot).map Parser.base = some el
    · simp only [if_pos hm] at h
      cases h1 : Parser.gotoJ rules fuel i rule 1 st with
      | error e => simp only [h1] at h; cases h
      | ok o1 =>
        simp only [h1] at h
        cases o1 with
        | none => cases h
        | some st1 =>
          by_cases hrep : Parser.canRepeat ((rule.children.get? rule.dot).getD "")
          · simp only [if_pos hrep] at h
            cases h0 : Parser.gotoJ rules fuel i rule 0 st1 with
            | error e => simp only [h0] at h; cases h
            | ok o0 =>
              simp only [h0] at h
              cases o0 with
              | none => cases h
              | some st2 =>
                rcases ih (i + 1) st2 st' h r hr with hr' | hr' | hr'
                · rcases gotoJ_members h0 r hr' with hr'' | hr'' | hr''
                  · rcases gotoJ_members h1 r hr'' with hr3 | hr3 | hr3
                    · exact Or.inl hr3
                    · exact Or.inr (Or.inl ⟨rule, List.mem_cons_self _ _, hr3⟩)
                    · exact Or.inr (Or.inr hr3)
                  · exact Or.inr (Or.inl ⟨rule, List.mem_cons_self _ _, hr''⟩)
                  · exact Or.inr (Or.inr hr'')
                · obtain ⟨src, hsrc, hr''⟩ := hr'
                  exact Or.inr (Or.inl ⟨src, List.mem_cons_of_mem _ hsrc, hr''⟩)
                · exact Or.inr (Or.inr hr')
          · simp only [if_neg hrep] at h
            rcases ih (i + 1) st1 st' h r hr with hr' | hr' | hr'
            · rcases gotoJ_members h1 r hr' with hr'' | hr'' | hr''
              · exact Or.inl hr''
              · exact Or.inr (Or.inl ⟨rule, List.mem_cons_self _ _, hr''⟩)
              · exact Or.inr (Or.inr hr'')
            · obtain ⟨src, hsrc, hr''⟩ := hr'
              exact Or.inr (Or.inl ⟨src, List.mem_cons_of_mem _ hsrc, hr''⟩)
            · exact Or.inr (Or.inr hr')
    · simp only [if_neg hm] at h
      rcases ih (i + 1) st st' h r hr with hr' | hr' | hr'
      · exact Or.inl hr'
      · obtain ⟨src, hsrc, hr''⟩ := hr'
        exact Or.inr (Or.inl ⟨src, List.mem_cons_of_mem _ hsrc, hr''⟩)
      · exact Or.inr (Or.inr hr')

/-- Every item of a `goto` output shares key and children with a source item,
or is a closure-introduced grammar item. -/
theorem goto_members {rules : RuleSet} {fuel : Nat} {ruleSet : List DottedRule}
    {el : String} {out : List DottedRule} {cf : List Parser.CFEntry}
    (h : Parser.goto rules fuel ruleSet el = .ok (some (out, cf))) :
    ∀ r ∈ out, (∃ src ∈ ruleSet, r.key = src.key ∧ r.children = src.children) ∨
      closureIntro rules r := by
  intro r hr
  rcases gotoLoop_members ruleSet 0 ([], []) (out, cf) h r hr with hr' | hr' | hr'
  · simp at hr'
  · exact Or.inl hr'
  · exact Or.inr hr'

/-! Action-table shape lemmas: reduce entries point at completed items, shift
entries store the `goto` of their state. -/

theorem alookup_append_singleton {α : Type} {k0 : String} {v0 : α} :
    ∀ (row : List (String × α)) (key : String) (a : α),
      alookup (row ++ [(k0, v0)]) key = some a →
      alookup row key = some a ∨ (k0 = key ∧ a = v0 ∧ alookup row key = none) := by
  intro row
  induction row with
  | nil =>
    intro key a h
    rw [List.nil_append, alookup] at h
    by_cases hk : k0 = key
    · rw [if_pos hk] at h
      cases h
      exact Or.inr ⟨hk, rfl, rfl⟩
    · rw [if_neg hk] at h
      cases h
  | cons p rest ih =>
    intro key a h
    obtain ⟨k1, v1⟩ := p
    rw [List.cons_append, alookup] at h
    by_cases hk : k1 = key
    · rw [if_pos hk] at h
      rw [alookup, if_pos hk]
      exact Or.inl h
    · rw [if_neg hk] at h
      rcases ih key a h with h' | ⟨h1, h2, h3⟩
      · rw [alookup, if_neg hk]
        exact Or.inl h'
      · rw [alookup, if_neg hk]
        exact Or.inr ⟨h1, h2, h3⟩

theorem rowInv_mono {rules : RuleSet} {fuel : Nat} {start : String}
    {states ext : List (List DottedRule)} {stateItems : List DottedRule}
    {row : Parser.Row} (h : rowInv rules fuel start states stateItems row) :
    rowInv rules fuel start (states ++ ext) stateItems row := by
  intro key a ha
  obtain ⟨hred, hsh⟩ := h key a ha
  refine ⟨hred, ?_⟩
  intro g cf heq
  obtain ⟨st', hst', hgoto⟩ := hsh g cf heq
  refine ⟨st', ?_, hgoto⟩
  have hlt : g < states.length := by
    by_contra hge
    rw [List.get?_eq_none.mpr (by omega)] at hst'
    cases hst'
  rw [List.get?_append hlt]
  exact hst'

theorem rowInv_append_entry {rules : RuleSet} {fuel : Nat} {start : String}
    {states : List (List DottedRule)} {stateItems : List DottedRule}
    {row : Parser.Row} {k0 : String} {a0 : Parser.Action}
    (h : rowInv rules fuel start states stateItems row)
    (hshape :
      (∀ k j, a0 = .reduce k j → ∃ item, stateItems.get? j = some item ∧
        item.dot = item.children.length ∧ item.key = k ∧ k ≠ start)
      ∧ (∀ g cf, a0 = .shift g cf → ∃ st', states.get? g = some st' ∧
        Parser.goto rules fuel stateItems k0 = .ok (some (st', cf)))) :
    rowInv rules fuel start states stateItems (row ++ [(k0, a0)]) := by
  intro key a ha
  rcases alookup_append_singleton row key a ha with ha' | ⟨hk, hv, _⟩
  · exact h key a ha'
  · subst hk
    subst hv
    exact hshape

theorem addReduces_rowInv {rules : RuleSet} {fuel : Nat} {start : String}
    {states : List (List DottedRule)} {stateItems : List DottedRule}
    {key : String} {children : Rule} {j : Nat} {item : DottedRule}
    (hitem : stateItems.get? j = some item)
    (hdot : item.dot = item.children.length) (hkey : item.key = key)
    (hstart : key ≠ start) :
    ∀ (els : List String) (row row' : Parser.Row),
      Parser.addReduces key children j els row = .ok row' →
      rowInv rules fuel start states stateItems row →
      rowInv rules fuel start states stateItems row' := by
  intro els
  induction els with
  | nil =>
    intro row row' h hr
    rw [Parser.addReduces] at h
    cases h
    exact hr
  | cons el els ih =>
    intro row row' h hr
    rw [Parser.addReduces] at h
    cases ha : alookup row el with
    | some a => rw [ha] at h; cases h
    | none =>
      rw [ha] at h
      refine ih _ _ h (rowInv_append_entry hr ⟨?_, ?_⟩)
      · intro k' j' heq
        cases heq
        exact ⟨item, hitem, hdot, hkey, hstart⟩
      · intro g cf heq
        cases heq

theorem buildState_inv {rules : RuleSet} {fuel : Nat}
    {followM : List (String × List String)} {start : String}
    {stateItems : List DottedRule} :
    ∀ (items : List DottedRule) (j : Nat) (states : List (List DottedRule))
      (row : Parser.Row) (sts' : List (List DottedRule)) (row' : Parser.Row),
      Parser.buildState rules fuel followM start stateItems items j states row =
        .ok (some (sts', row')) →
      stateItems.drop j = items →
      statesInv rules start states →
      (∀ item ∈ stateItems,
        (∃ rl, alookup rules item.key = some rl ∧ item.children ∈ rl) ∨
          (item.key = start ∧ item.children = [start])) →
      rowInv rules fuel start states stateItems row →
      (∃ ext, sts' = states ++ ext) ∧ statesInv rules start sts' ∧
        rowInv rules fuel start sts' stateItems row' := by
  intro items
  induction items with
  | nil =>
    intro j states row sts' row' h _ hsts _ hrow
    rw [Parser.buildState] at h
    cases h
    exact ⟨⟨[], by simp⟩, hsts, hrow⟩
  | cons rule rest ih =>
    intro j states row sts' row' h hdrop hsts hgood hrow
    have hget : stateItems.get? j = some rule := by
      have := List.get?_drop stateItems j 0
      rw [hdrop] at this
      simpa using this.symm
    have hdrop' : stateItems.drop (j + 1) = rest := by
      have h1 : stateItems.drop (j + 1) = (stateItems.drop j).drop 1 := by
        rw [List.drop_drop]
      rw [h1, hdrop]
      rfl
    rw [Parser.buildState] at h
    by_cases hdot : rule.dot = rule.children.length
    · rw [if_pos hdot] at h
      by_cases hkey : rule.key = start
      · rw [if_pos hkey] at h
        cases ha : alookup row "$" with
        | some a => rw [ha] at h; cases h
        | none =>
          rw [ha] at h
          refine ih _ _ _ _ _ h hdrop' hsts hgood
            (rowInv_append_entry hrow ⟨?_, ?_⟩)
          · intro k' j' heq; cases heq
          · intro g cf heq; cases heq
      · rw [if_neg hkey] at h
        cases hr : Parser.addReduces rule.key rule.children j
            ((alookup followM rule.key).getD []) row with
        | error e => rw [hr] at h; cases h
        | ok row'' =>
          rw [hr] at h
          exact ih _ _ _ _ _ h hdrop' hsts hgood
            (addReduces_rowInv hget hdot rfl hkey _ _ _ hr hrow)
    · rw [if_neg hdot] at h
      cases ha : alookup row (Parser.base ((rule.children.get? rule.dot).getD "")) with
      | some a =>
        rw [ha] at h
        by_cases hk : Parser.actionKind a = "shift"
        · simp only [if_pos hk] at h
          exact ih _ _ _ _ _ h hdrop' hsts hgood hrow
        · simp only [if_neg hk] at h
          cases h
      | none =>
        rw [ha] at h
        cases hg : Parser.goto rules fuel stateItems
            (Parser.base ((rule.children.get? rule.dot).getD "")) with
        | error e => rw [hg] at h; cases h
        | ok o =>
          rw [hg] at h
          cases o with
          | none => cases h
          | some p =>
            obtain ⟨gotoState, cf⟩ := p
            have hgoodGoto : ∀ r ∈ gotoState,
                (∃ rl, alookup rules r.key = some rl ∧ r.children ∈ rl) ∨
                  (r.key = start ∧ r.children = [start]) := by
              intro r hr
              rcases goto_members hg r hr with ⟨src, hsrc, hrk, hrc⟩ | hintro
              · rcases hgood src hsrc with ⟨rl, hrl, hch⟩ | ⟨h1, h2⟩
                · exact Or.inl ⟨rl, by rw [hrk]; exact hrl, by rw [hrc]; exact hch⟩
                · exact Or.inr ⟨by rw [hrk]; exact h1, by rw [hrc]; exact h2⟩
              · obtain ⟨nt, rl, ch, hrl, hch, hmem⟩ := hintro
                obtain ⟨hk', hc', _⟩ := skipOmit_mem hmem
                exact Or.inl ⟨rl, by rw [hk']; exact hrl, by rw [hc']; exact hch⟩
            cases hf : states.findIdx? (fun s => s == gotoState) with
            | some g =>
              simp only [hf] at h
              have hfound := findIdx?_beq_get states 0 g hf
              have hgget : states.get? g = some gotoState := by
                have := hfound.2
                simpa using this
              refine ih _ _ _ _ _ h hdrop' hsts hgood
                (rowInv_append_entry hrow ⟨?_, ?_⟩)
              · intro k' j' heq; cases heq
              · intro g' cf' heq
                cases heq
                exact ⟨gotoState, hgget, hg⟩
            | none =>
              simp only [hf] at h
              have hsts' : statesInv rules start (states ++ [gotoState]) := by
                intro st hst item hitem
                rcases List.mem_append.mp hst with hst | hst
                · exact hsts st hst item hitem
                · rw [List.mem_singleton] at hst
                  subst hst
                  exact hgoodGoto item hitem
              have hrowExt : rowInv rules fuel start (states ++ [gotoState]) stateItems
                  (row ++ [(Parser.base ((rule.children.get? rule.dot).getD ""),
                    .shift states.length cf)]) := by
                refine rowInv_append_entry (rowInv_mono hrow) ⟨?_, ?_⟩
                · intro k' j' heq; cases heq
                · intro g' cf' heq
                  cases heq
                  exact ⟨gotoState, List.get?_concat_length _ _, hg⟩
              obtain ⟨⟨ext, hext⟩, hsts'', hrow''⟩ :=
                ih _ _ _ _ _ h hdrop' hsts' hgood hrowExt
              refine ⟨⟨[gotoState] ++ ext, ?_⟩, hsts'', hrow''⟩
              rw [hext, List.append_assoc]

theorem tableInv_mono {rules : RuleSet} {fuel : Nat} {start : String}
    {states ext : List (List DottedRule)} {table : List Parser.Row}
    (h : tableInv rules fuel start states table) :
    tableInv rules fuel start (states ++ ext) table := by
  intro s row hrow
  obtain ⟨stateItems, hst, hr⟩ := h s row hrow
  refine ⟨stateItems, ?_, rowInv_mono hr⟩
  have hlt : s < states.length := by
    by_contra hge
    rw [List.get?_eq_none.mpr (by omega)] at hst
    cases hst
  rw [List.get?_append hlt]
  exact hst

theorem buildLoop_inv {rules : RuleSet} {fuel : Nat}
    {followM : List (String × List String)} {start : String} :
    ∀ (f : Nat) (states : List (List DottedRule)) (i : Nat) (table : List Parser.Row)
      (sts' : List (List DottedRule)) (tbl' : List Parser.Row),
      Parser.buildLoop rules fuel followM start f states i table = .ok (some (sts', tbl')) →
      table.length = i →
      statesInv rules start states →
      tableInv rules fuel start states table →
      (∃ ext, sts' = states ++ ext) ∧ statesInv rules start sts' ∧
        tableInv rules fuel start sts' tbl' := by
  intro f
  induction f with
  | zero => intro states i table sts' tbl' h _ _ _; rw [Parser.buildLoop] at h; cases h
  | succ f ih =>
    intro states i table sts' tbl' h hlen hsts htbl
    rw [Parser.buildLoop] at h
    cases hs : states.get? i with
    | none =>
      rw [hs] at h
      cases h
      exact ⟨⟨[], by simp⟩, hsts, htbl⟩
    | some st =>
      simp only [hs] at h
      cases hb : Parser.buildState rules fuel followM start st st 0 states [] with
      | error e => simp only [hb] at h; cases h
      | ok o =>
        simp only [hb] at h
        cases o with
        | none => cases h
        | some p =>
          obtain ⟨states1, row⟩ := p
          have hgood : ∀ item ∈ st,
              (∃ rl, alookup rules item.key = some rl ∧ item.children ∈ rl) ∨
                (item.key = start ∧ item.children = [start]) :=
            hsts st (List.get?_mem hs)
          obtain ⟨⟨ext1, hext1⟩, hsts1, hrow1⟩ :=
            buildState_inv st 0 states [] states1 row hb rfl hsts hgood
              (fun key a ha => by rw [alookup] at ha; cases ha)
          have htbl1 : tableInv rules fuel start states1 (table ++ [row]) := by
            intro s row0 hrow0
            by_cases hlt : s < table.length
            · rw [List.get?_append hlt] at hrow0
              obtain ⟨si, hsi, hri⟩ := htbl s row0 hrow0
              rw [hext1]
              refine ⟨si, ?_, rowInv_mono hri⟩
              have hlt' : s < states.length := by
                by_contra hge
                rw [List.get?_eq_none.mpr (by omega)] at hsi
                cases hsi
              rw [List.get?_append hlt']
              exact hsi
            · have hseq : s = table.length := by
                by_contra hne
                rw [List.get?_eq_none.mpr (by simp; omega)] at hrow0
                cases hrow0
              subst hseq
              rw [List.get?_concat_length] at hrow0
              cases hrow0
              refine ⟨st, ?_, hrow1⟩
              have hlt' : i < states.length := by
                by_contra hge
                rw [List.get?_eq_none.mpr (by omega)] at hs
                cases hs
              rw [hlen, hext1, List.get?_append hlt']
              exact hs
          obtain ⟨⟨ext2, hext2⟩, hsts2, htbl2⟩ :=
            ih states1 (i + 1) (table ++ [row]) sts' tbl' h (by simp [hlen]) hsts1 htbl1
          refine ⟨⟨ext1 ++ ext2, ?_⟩, hsts2, htbl2⟩
          rw [hext2, hext1, List.append_assoc]

/-- A successful `buildTableAux` yields a canonical collection whose items are
grammar items, a table whose rows satisfy the row shape, and state 0 equal to
the closure of the synthetic start item. -/
theorem buildTableAux_inv {rules : RuleSet} {start : String} {fuel : Nat}
    {states : List (List DottedRule)} {table : List Parser.Row}
    (h : Parser.buildTableAux rules start fuel = .ok (some (states, table))) :
    statesInv rules start states ∧ tableInv rules fuel start states table ∧
      ∃ st0, Parser.closure rules fuel ⟨start, [start], 0⟩ = some st0 ∧
        states.get? 0 = some st0 := by
  rw [Parser.buildTableAux] at h
  cases hc : Parser.closure rules fuel ⟨start, [start], 0⟩ with
  | none => rw [hc] at h; cases h
  | some st0 =>
    rw [hc] at h
    cases hf : Parser.follow rules start fuel with
    | none => rw [hf] at h; cases h
    | some followM =>
      rw [hf] at h
      have hsts0 : statesInv rules start [st0] := by
        intro st hst item hitem
        rw [List.mem_singleton] at hst
        subst hst
        rcases closure_members hc item hitem with hm | hm
        · obtain ⟨hk, hch, _⟩ := skipOmit_mem hm
          exact Or.inr ⟨hk, hch⟩
        · obtain ⟨nt, rl, ch, hrl, hch, hmem⟩ := hm
          obtain ⟨hk, hc', _⟩ := skipOmit_mem hmem
          exact Or.inl ⟨rl, by rw [hk]; exact hrl, by rw [hc']; exact hch⟩
      obtain ⟨⟨ext, hext⟩, hsts, htbl⟩ :=
        buildLoop_inv fuel [st0] 0 [] states table h rfl hsts0
          (fun s row hrow => by rw [List.get?_eq_none.mpr (by simp)] at hrow; cases hrow)
      refine ⟨hsts, htbl, st0, rfl, ?_⟩
      rw [hext]
      rfl

/-! The runtime width-tracking invariant (C1). -/

theorem mkReadEntry_idx {cf : List Parser.CFEntry} {prev : List (Option Nat)}
    {j i : Nat} (h : cf.get? j = some (.idx i)) :
    Parser.sparseGet (Parser.mkReadEntry cf prev) j =
      some ((Parser.sparseGet prev i).getD 0 + 1) := by
  rw [Parser.sparseGet, Parser.mkReadEntry, List.get?_map, h]
  rfl

theorem mkReadEntry_none {cf : List Parser.CFEntry} {prev : List (Option Nat)}
    {j : Nat} (h : cf.get? j = none ∨ cf.get? j = some .hole) :
    Parser.sparseGet (Parser.mkReadEntry cf prev) j = none := by
  rw [Parser.sparseGet, Parser.mkReadEntry, List.get?_map]
  rcases h with h | h
  · rw [h]
    rfl
  · rw [h]
    rfl

theorem cfGet_some_get? {cf : List Parser.CFEntry} {p i : Nat}
    (h : Parser.cfGet cf p = some i) : cf.get? p = some (.idx i) := by
  rw [Parser.cfGet] at h
  cases hg : cf.get? p with
  | none => rw [hg] at h; cases h
  | some e =>
    rw [hg] at h
    cases e with
    | idx m => cases h; rfl
    | nullv => cases h
    | hole => cases h

/-- Pushing a shift's goto state and its fresh `readStack` entry preserves the
width-tracking invariant. -/
theorem stacksInv_push {rules : RuleSet} {fuel : Nat} {start : String}
    {states : List (List DottedRule)} {table : List Parser.Row}
    (htable : tableInv rules fuel start states table)
    {stk : List Nat} {rstk : List (List (Option Nat))} {s : Nat} {row : Parser.Row}
    {key : String} {g : Nat} {cf : List Parser.CFEntry}
    (hinv : stacksInv states stk rstk)
    (hs : stk.head? = some s)
    (hrow : table.get? s = some row)
    (hact : alookup row key = some (.shift g cf)) :
    stacksInv states (g :: stk) (Parser.mkReadEntry cf (rstk.headD []) :: rstk) := by
  obtain ⟨hlen, hlev⟩ := hinv
  refine ⟨by simp [hlen], ?_⟩
  intro k s' hk
  cases k with
  | succ k =>
    simp only [List.get?_cons_succ] at hk ⊢
    exact hlev k s' hk
  | zero =>
    simp only [List.get?_cons_zero, Option.getD_some] at hk ⊢
    cases hk
    obtain ⟨stateItems, hsi, hrowInv⟩ := htable s row hrow
    obtain ⟨st', hst', hgoto⟩ := (hrowInv key _ hact).2 g cf rfl
    refine ⟨st', hst', ?_⟩
    obtain ⟨ginv1, ginv2, _, _⟩ := goto_inv hgoto
    dsimp only at ginv1 ginv2
    have hprev : (rstk.headD []) = ((rstk.get? 0).getD []) := by
      cases rstk with
      | nil => rfl
      | cons a l => rfl
    have hlev0 := hlev 0 s (by rw [← List.get?_zero] at hs; exact hs)
    obtain ⟨st0, hst0, hitems0⟩ := hlev0
    have hst0eq : st0 = stateItems := by
      rw [hsi] at hst0
      cases hst0
      rfl
    subst hst0eq
    intro j item hitem hplain
    constructor
    · intro hd
      obtain ⟨i, src, hcf, hsrc, hk', hc', hd', _⟩ := ginv1 j item hitem hplain hd
      rw [mkReadEntry_idx (cfGet_some_get? hcf)]
      have hsrcPlain : plainRule src.children = true := by
        rw [hc']; exact hplain
      have hsprops := hitems0 i src hsrc hsrcPlain
      by_cases hsd : 1 ≤ src.dot
      · rw [hprev, hsprops.1 hsd]
        simp
        omega
      · have hz : src.dot = 0 := by omega
        rw [hprev, hsprops.2 hz]
        simp
        omega
    · intro hd0
      exact mkReadEntry_none (ginv2 j item hitem hplain hd0)

/-- Dropping levels preserves the width-tracking invariant. -/
theorem stacksInv_drop {states : List (List DottedRule)} {stk : List Nat}
    {rstk : List (List (Option Nat))} {n : Nat}
    (hinv : stacksInv states stk rstk) :
    stacksInv states (stk.drop n) (rstk.drop n) := by
  obtain ⟨hlen, hlev⟩ := hinv
  refine ⟨by simp [hlen], ?_⟩
  intro k s hk
  rw [List.get?_drop] at hk
  obtain ⟨st, hst, hprops⟩ := hlev (n + k) s hk
  refine ⟨st, hst, ?_⟩
  intro j item hitem hplain
  rw [List.get?_drop]
  exact hprops j item hitem hplain

theorem dispatch_runInv {rules : RuleSet} {fuel : Nat} {start : String}
    {states : List (List DottedRule)} {table : List Parser.Row}
    (htable : tableInv rules fuel start states table)
    {cfg : Parser.Config} {token : LexTree} {cfg' : Parser.Config}
    (h : Parser.dispatch table cfg token = .next cfg')
    (hinv : stacksInv states cfg.stateStack cfg.readStack) :
    stacksInv states cfg'.stateStack cfg'.readStack := by
  rw [Parser.dispatch] at h
  by_cases hws : token.type == "whitespace"
  · simp only [if_pos hws] at h
    cases h
    exact hinv
  · simp only [if_neg hws] at h
    cases hhd : cfg.stateStack.head? with
    | none => simp only [hhd] at h; cases h
    | some s =>
      simp only [hhd] at h
      cases hrow : table.get? s with
      | none => simp only [hrow] at h; cases h
      | some row =>
        simp only [hrow] at h
        cases hact : alookup row token.type with
        | none => simp only [hact] at h; cases h
        | some a =>
          simp only [hact] at h
          cases a with
          | shift g cf =>
            cases h
            exact stacksInv_push htable hinv hhd hrow hact
          | reduce key ruleIdx =>
            cases hn : Parser.sparseGet (cfg.readStack.headD []) ruleIdx with
            | none => simp only [hn] at h; cases h
            | some n =>
              simp only [hn] at h
              cases hhd' : (cfg.stateStack.drop n).head? with
              | none => simp only [hhd'] at h; cases h
              | some s' =>
                simp only [hhd'] at h
                cases hrow' : table.get? s' with
                | none => simp only [hrow'] at h; cases h
                | some row' =>
                  simp only [hrow'] at h
                  cases hact' : alookup row' key with
                  | none => simp only [hact'] at h; cases h
                  | some a' =>
                    simp only [hact'] at h
                    cases a' with
                    | shift g cf =>
                      cases h
                      exact stacksInv_push htable (stacksInv_drop hinv) hhd' hrow' hact'
                    | reduce k r => cases h
                    | accept k => cases h
          | accept key => cases h

theorem parseStep_runInv {rules : RuleSet} {fuel : Nat} {start : String}
    {states : List (List DottedRule)} {table : List Parser.Row}
    (htable : tableInv rules fuel start states table)
    {lexer : List Terminal} {tokens : List LexTree} {cfg cfg' : Parser.Config}
    (h : Parser.parseStep lexer table tokens cfg = .next cfg')
    (hinv : stacksInv states cfg.stateStack cfg.readStack) :
    stacksInv states cfg'.stateStack cfg'.readStack := by
  rw [Parser.parseStep] at h
  cases hlt : cfg.lexToken with
  | some ltok =>
    simp only [hlt] at h
    exact dispatch_runInv htable h hinv
  | none =>
    simp only [hlt] at h
    cases htok : tokens.get? cfg.i with
    | none => simp only [htok] at h; cases h
    | some tok =>
      simp only [htok] at h
      by_cases hu : tok.type == "unknown"
      · simp only [if_pos hu] at h
        cases hnx : Lexer.next lexer tok cfg.index
            ((cfg.stateStack.head?.bind (fun s => table.get? s)).map
              (fun row => row.map (fun kv => kv.1))) with
        | error e => simp only [hnx] at h; cases h
        | ok ltok =>
          simp only [hnx] at h
          by_cases hd : ltok.type == "$"
          · simp only [if_pos hd] at h
            cases h
            exact hinv
          · simp only [if_neg hd] at h
            exact dispatch_runInv htable h hinv
      · simp only [if_neg hu] at h
        exact dispatch_runInv htable h hinv

/-- The initial configuration satisfies the width-tracking invariant: state 0
is the closure of the synthetic start item, which contains no quantifier-free
item with the dot past 0. -/
theorem stacksInv_init {rules : RuleSet} {fuel : Nat} {start : String}
    {states : List (List DottedRule)} {st0 : List DottedRule}
    (hclos : Parser.closure rules fuel ⟨start, [start], 0⟩ = some st0)
    (hst0 : states.get? 0 = some st0) :
    stacksInv states Parser.initConfig.stateStack Parser.initConfig.readStack := by
  refine ⟨rfl, ?_⟩
  intro k s hk
  cases k with
  | succ k => simp [Parser.initConfig] at hk
  | zero =>
    simp only [Parser.initConfig, List.get?_cons_zero] at hk
    cases hk
    refine ⟨st0, hst0, ?_⟩
    intro j item hitem hplain
    constructor
    · intro hd
      exfalso
      have hmem := closure_plain_dot_pos hclos (List.get?_mem hitem) hplain hd
      have := skipOmit_plain_mem hmem hplain
      subst this
      simp at hd
    · intro _
      rfl

/-- Every configuration reachable by `Parser.parse` under a successfully
built table satisfies the width-tracking invariant. -/
theorem reachable_runInv {rules : RuleSet} {start : String} {fuel : Nat}
    {states : List (List DottedRule)} {table : List Parser.Row}
    (hbuild : Parser.buildTableAux rules start fuel = .ok (some (states, table)))
    {lexer : List Terminal} {tokens : List LexTree} {cfg : Parser.Config}
    (hreach : Parser.Reachable lexer table tokens cfg) :
    runInv states cfg := by
  obtain ⟨_, htable, st0, hclos, hst0⟩ := buildTableAux_inv hbuild
  induction hreach with
  | refl => exact stacksInv_init hclos hst0
  | tail _ hstep ih => exact parseStep_runInv htable hstep ih

theorem alookup_mem {α : Type} : ∀ {l : List (String × α)} {k : String} {v : α},
    alookup l k = some v → (k, v) ∈ l := by
  intro l
  induction l with
  | nil => intro k v h; rw [alookup] at h; cases h
  | cons p rest ih =>
    intro k v h
    obtain ⟨k1, v1⟩ := p
    rw [alookup] at h
    by_cases hk : k1 = k
    · rw [if_pos hk] at h
      cases h
      subst hk
      exact List.mem_cons_self _ _
    · rw [if_neg hk] at h
      exact List.mem_cons_of_mem _ (ih h)

/-- C1: for a grammar accepted by the table builder whose rules are all
non-empty, whenever the parser is in a reachable configuration whose current
state carries a reduce action for a quantifier-free rule, the count taken from
the top `readStack` entry at that action's item index is exactly the length of
the rule's right-hand side — so the reduce pops exactly `len(α)` symbols (and
as many `readStack` and `stateStack` entries). -/
theorem reduce_pops_rule_length (rules : RuleSet) (start : String) (fuel : Nat)
    (states : List (List DottedRule)) (table : List Parser.Row)
    (lexer : List Terminal) (tokens : List LexTree) (cfg : Parser.Config)
    (s : Nat) (row : Parser.Row) (ty k : String) (j : Nat)
    (st : List DottedRule) (item : DottedRule)
    (hbuild : Parser.buildTableAux rules start fuel = .ok (some (states, table)))
    (hnonempty : ∀ p ∈ rules, ∀ r ∈ p.2, r ≠ ([] : Rule))
    (hreach : Parser.Reachable lexer table tokens cfg)
    (hhead : cfg.stateStack.head? = some s)
    (hrowGet : table.get? s = some row)
    (hact : alookup row ty = some (.reduce k j))
    (hst : states.get? s = some st)
    (hitem : st.get? j = some item)
    (hplain : plainRule item.children = true) :
    Parser.sparseGet (cfg.readStack.headD []) j = some item.children.length := by
  obtain ⟨hstsInv, htable, _⟩ := buildTableAux_inv hbuild
  obtain ⟨hlen, hlev⟩ := reachable_runInv hbuild hreach
  obtain ⟨stateItems, hsi, hrowInv⟩ := htable s row hrowGet
  have hsieq : stateItems = st := by
    rw [hst] at hsi
    cases hsi
    rfl
  subst hsieq
  obtain ⟨item', hitem', hdot', hkey', hstart'⟩ := (hrowInv ty _ hact).1 k j rfl
  have hieq : item' = item := by
    rw [hitem] at hitem'
    cases hitem'
    rfl
  rw [hieq] at hdot' hkey'
  have hgood := hstsInv stateItems (List.get?_mem hst) item (List.get?_mem hitem)
  rcases hgood with ⟨rl, hrl, hch⟩ | ⟨hks, _⟩
  · have hne : item.children ≠ [] := hnonempty (item.key, rl) (alookup_mem hrl) _ hch
    have hlen1 : 1 ≤ item.children.length := by
      cases hc : item.children with
      | nil => exact absurd hc hne
      | cons a l => simp
    have hget0 : cfg.stateStack.get? 0 = some s := by
      cases hstk : cfg.stateStack with
      | nil => rw [hstk] at hhead; cases hhead
      | cons a l =>
        rw [hstk] at hhead
        cases hhead
        rfl
    obtain ⟨st2, hst2, hprops⟩ := hlev 0 s hget0
    have hst2eq : st2 = stateItems := by
      rw [hst] at hst2
      cases hst2
      rfl
    subst hst2eq
    have hcount := (hprops j item hitem hplain).1 (by omega)
    have hhd : cfg.readStack.headD [] = (cfg.readStack.get? 0).getD [] := by
      cases cfg.readStack with
      | nil => rfl
      | cons a l => rfl
    rw [hhd, hcount, hdot']
  · exact absurd (hkey'.symm.trans hks) hstart'

/-- Witness for C1 at a concrete input: the grammar `root → X`, `X → "a"`
after shifting `"a"` from the input `"a"` — the pending reduce of `X → "a"`
will pop exactly one symbol. -/
theorem reduce_pops_rule_length_witness :
    Parser.sparseGet
      ((⟨[.leaf ⟨"a", ["a"], 0, 0⟩], [[some 1], []], [3, 0], 0, none, 1⟩ :
        Parser.Config).readStack.headD []) 0 =
      some (⟨"X", ["a"], 1⟩ : DottedRule).children.length :=
  reduce_pops_rule_length unitRules "root" 50 unitBuild.1 unitBuild.2 unitLexer
    (Lexer.split "a" none)
    ⟨[.leaf ⟨"a", ["a"], 0, 0⟩], [[some 1], []], [3, 0], 0, none, 1⟩
    3 [("$", .reduce "X" 0)] "$" "X" 0 [⟨"X", ["a"], 1⟩] ⟨"X", ["a"], 1⟩
    (by rfl) (by decide)
    (Relation.ReflTransGen.tail Relation.ReflTransGen.refl (by rfl))
    (by rfl) (by rfl) (by rfl) (by rfl) (by rfl) (by rfl)
